import Mathlib

/-!
# btcore: message codec, checksum, handshake and dispatch step

A shallow embedding of `internal/btcore` (`message.go`, `util.go`, `errors.go`, `client.go`).

* Bytes are `Fin 256`; the fixed-width integers of the source (`uint32`, `uint64`, `int32`,
  `int64`, `uint16`) are natural numbers or integers that are reduced modulo the width where
  the source truncates (conversions and `binary.Write`).
* A Go byte slice is a `Slice`: either the nil slice or a slice with contents.
* Slice expressions and fixed-width reads are fallible (`Option`), `none` standing for the
  run-time panic "index out of range".
* The socket is an explicit `Conn` value: the outcomes of the `Read` calls still to come, the
  outcome of every `Write` call, and the log of the buffers written so far.
-/

namespace Btcore

/-! ## Bytes and slices -/

abbrev Byte := Fin 256

/-- The low eight bits of a number, as a byte. -/
def toByte (n : Nat) : Byte := ⟨n % 256, Nat.mod_lt n (by decide)⟩

/-- A Go `[]byte` value: the nil slice, or a slice holding `bytes`. -/
inductive Slice where
  | nil
  | mk (bytes : List Byte)
deriving DecidableEq, Repr

namespace Slice

/-- The contents of a slice; the nil slice has none. -/
def bytes : Slice → List Byte
  | nil => []
  | mk bs => bs

/-- Go `len(s)`. -/
def len (s : Slice) : Nat := s.bytes.length

/-- Go `s == nil`. -/
def isNil : Slice → Bool
  | nil => true
  | mk _ => false

end Slice

/-- The slice expression `data[lo:hi]`; `none` is the out-of-range panic. The bound checked is
the length, which never exceeds the capacity Go checks against. -/
def slice (data : List Byte) (lo hi : Nat) : Option (List Byte) :=
  if lo ≤ hi ∧ hi ≤ data.length then some ((data.take hi).drop lo) else none

/-- The slice expression `data[lo:]`; `none` is the out-of-range panic. -/
def sliceFrom (data : List Byte) (lo : Nat) : Option (List Byte) :=
  if lo ≤ data.length then some (data.drop lo) else none

/-- The conversion `[12]byte(s)`, which panics when `s` has fewer than 12 elements. -/
def toArray12 (s : List Byte) : Option (List Byte) :=
  if s.length < 12 then none else some (s.take 12)

/-! ## encoding/binary -/

namespace LittleEndian

/-- Go `binary.LittleEndian.Uint32(b)`: reads `b[0..3]`, panics when `len(b) < 4`. -/
def Uint32 : List Byte → Option Nat
  | b0 :: b1 :: b2 :: b3 :: _ =>
    some (b0.val + b1.val * 256 + b2.val * 65536 + b3.val * 16777216)
  | _ => none

/-- Go `binary.Write(buf, binary.LittleEndian, v)` for a `uint32` or `int32` bit pattern. -/
def putUint32 (v : Nat) : List Byte :=
  [toByte v, toByte (v / 256), toByte (v / 65536), toByte (v / 16777216)]

/-- Go `binary.Write(buf, binary.LittleEndian, v)` for a `uint64` or `int64` bit pattern. -/
def putUint64 (v : Nat) : List Byte :=
  putUint32 v ++ putUint32 (v / 4294967296)

end LittleEndian

namespace BigEndian

/-- Go `binary.Write(buf, binary.BigEndian, v)` for a `uint16`. -/
def putUint16 (v : Nat) : List Byte := [toByte (v / 256), toByte v]

end BigEndian

/-- The 64-bit two's complement bit pattern of an `int64`. -/
def int64Bits (t : Int) : Nat := (t % 18446744073709551616).toNat

/-- The 32-bit two's complement bit pattern of an `int32`. -/
def int32Bits (t : Int) : Nat := (t % 4294967296).toNat

/-! ## crypto/sha256

The source calls the Go standard library; this is SHA-256 as specified in FIPS 180-4, on
32-bit words held as natural numbers. -/

namespace Sha256

def mask32 (x : Nat) : Nat := x % 4294967296

def rotr (x n : Nat) : Nat := mask32 ((x >>> n) ||| (x <<< (32 - n)))

def bigSigma0 (x : Nat) : Nat := rotr x 2 ^^^ rotr x 13 ^^^ rotr x 22

def bigSigma1 (x : Nat) : Nat := rotr x 6 ^^^ rotr x 11 ^^^ rotr x 25

def smallSigma0 (x : Nat) : Nat := rotr x 7 ^^^ rotr x 18 ^^^ (x >>> 3)

def smallSigma1 (x : Nat) : Nat := rotr x 17 ^^^ rotr x 19 ^^^ (x >>> 10)

def ch (x y z : Nat) : Nat := (x &&& y) ^^^ ((4294967295 - x) &&& z)

def maj (x y z : Nat) : Nat := (x &&& y) ^^^ (x &&& z) ^^^ (y &&& z)

def roundConstants : List Nat := [
  0x428a2f98, 0x71374491, 0xb5c0fbcf, 0xe9b5dba5, 0x3956c25b, 0x59f111f1, 0x923f82a4, 0xab1c5ed5,
  0xd807aa98, 0x12835b01, 0x243185be, 0x550c7dc3, 0x72be5d74, 0x80deb1fe, 0x9bdc06a7, 0xc19bf174,
  0xe49b69c1, 0xefbe4786, 0x0fc19dc6, 0x240ca1cc, 0x2de92c6f, 0x4a7484aa, 0x5cb0a9dc, 0x76f988da,
  0x983e5152, 0xa831c66d, 0xb00327c8, 0xbf597fc7, 0xc6e00bf3, 0xd5a79147, 0x06ca6351, 0x14292967,
  0x27b70a85, 0x2e1b2138, 0x4d2c6dfc, 0x53380d13, 0x650a7354, 0x766a0abb, 0x81c2c92e, 0x92722c85,
  0xa2bfe8a1, 0xa81a664b, 0xc24b8b70, 0xc76c51a3, 0xd192e819, 0xd6990624, 0xf40e3585, 0x106aa070,
  0x19a4c116, 0x1e376c08, 0x2748774c, 0x34b0bcb5, 0x391c0cb3, 0x4ed8aa4a, 0x5b9cca4f, 0x682e6ff3,
  0x748f82ee, 0x78a5636f, 0x84c87814, 0x8cc70208, 0x90befffa, 0xa4506ceb, 0xbef9a3f7, 0xc67178f2]

/-- The eight working variables `a .. h` of the hash computation. -/
structure State where
  a : Nat
  b : Nat
  c : Nat
  d : Nat
  e : Nat
  f : Nat
  g : Nat
  h : Nat
deriving DecidableEq, Repr

def initialHash : State :=
  ⟨0x6a09e667, 0xbb67ae85, 0x3c6ef372, 0xa54ff53a, 0x510e527f, 0x9b05688c, 0x1f83d9ab, 0x5be0cd19⟩

/-- Message padding: a 0x80 byte, zero bytes up to 56 modulo 64, then the bit length as a
big-endian 64-bit integer. -/
def pad (msg : List Nat) : List Nat :=
  let bits := (8 * msg.length) % 18446744073709551616
  msg ++ [128] ++ List.replicate ((119 - msg.length % 64) % 64) 0 ++
    [bits >>> 56 % 256, bits >>> 48 % 256, bits >>> 40 % 256, bits >>> 32 % 256,
     bits >>> 24 % 256, bits >>> 16 % 256, bits >>> 8 % 256, bits % 256]

/-- Big-endian 32-bit words of a byte string (a trailing partial word is dropped). -/
def toWords : List Nat → List Nat
  | a :: b :: c :: d :: rest => (a * 16777216 + b * 65536 + c * 256 + d) :: toWords rest
  | _ => []

/-- Extends a window of the 16 most recent schedule words by `n` further words. -/
def extend : Nat → List Nat → List Nat
  | 0, _ => []
  | n + 1, w =>
    let next :=
      mask32 (smallSigma1 (w.getD 14 0) + w.getD 9 0 + smallSigma0 (w.getD 1 0) + w.getD 0 0)
    next :: extend n (w.drop 1 ++ [next])

/-- The 64-word message schedule of a 16-word block. -/
def schedule (block : List Nat) : List Nat := block ++ extend 48 block

/-- One round of the compression function. -/
def round (v : State) (k w : Nat) : State :=
  let t1 := v.h + bigSigma1 v.e + ch v.e v.f v.g + k + w
  let t2 := bigSigma0 v.a + maj v.a v.b v.c
  ⟨mask32 (t1 + t2), v.a, v.b, v.c, mask32 (v.d + t1), v.e, v.f, v.g⟩

def rounds : State → List Nat → List Nat → State
  | v, k :: ks, w :: ws => rounds (round v k w) ks ws
  | v, _, _ => v

def compress (s : State) (block : List Nat) : State :=
  let v := rounds s roundConstants (schedule block)
  ⟨mask32 (s.a + v.a), mask32 (s.b + v.b), mask32 (s.c + v.c), mask32 (s.d + v.d),
   mask32 (s.e + v.e), mask32 (s.f + v.f), mask32 (s.g + v.g), mask32 (s.h + v.h)⟩

/-- Compresses `n` consecutive 16-word blocks. -/
def hashBlocks : Nat → State → List Nat → State
  | 0, s, _ => s
  | n + 1, s, ws => hashBlocks n (compress s (ws.take 16)) (ws.drop 16)

def wordBytes (w : Nat) : List Nat := [w >>> 24 % 256, w >>> 16 % 256, w >>> 8 % 256, w % 256]

def digest (msg : List Nat) : List Nat :=
  let ws := toWords (pad msg)
  let s := hashBlocks (ws.length / 16) initialHash ws
  wordBytes s.a ++ wordBytes s.b ++ wordBytes s.c ++ wordBytes s.d ++
    wordBytes s.e ++ wordBytes s.f ++ wordBytes s.g ++ wordBytes s.h

end Sha256

/-- The 32-byte digest produced by `h := sha256.New(); h.Write(input); h.Sum(nil)`. -/
def sha256 (input : List Byte) : List Byte :=
  (Sha256.digest (input.map Fin.val)).map toByte

/-! ## util.go -/

def emptyPayloadChecksum : Nat := 0x5df6e0e2

/-- The general branch of `checksum`: `binary.LittleEndian.Uint32(h2.Sum(nil)[:4])` where `h2`
has absorbed the digest of `input`. The digest has 32 bytes (`doubleSha256LE_isSome`), so the
read cannot fail. -/
def doubleSha256LE (input : List Byte) : Option Nat :=
  slice (sha256 (sha256 input)) 0 4 >>= LittleEndian.Uint32

/-- Go `checksum`: the constant for a nil or empty input, the double SHA-256 read otherwise. -/
def checksum (input : Slice) : Nat :=
  if input.isNil || input.len == 0 then emptyPayloadChecksum
  else (doubleSha256LE input.bytes).getD 0

/-! ## errors.go -/

/-- A Go `error` value that is not nil: one of the package's sentinel errors, an error
produced by the `net` package (identified by a number), or `errors.Join(a, b)` of two
non-nil errors. -/
inductive Error where
  | ErrChecksum
  | ErrMessageSend
  | ErrMessageReceive
  | ErrUnexpectedMessageType
  | ErrHandshake
  | ErrMessageSize
  | ErrContext
  | net (code : Nat)
  | join (a b : Error)
deriving DecidableEq, Repr

/-- Go `errors.Is(err, target)` for a sentinel `target`: the error itself, or one reachable
through joined errors. -/
def Error.Is : Error → Error → Bool
  | .join a b, target => decide (Error.join a b = target) || a.Is target || b.Is target
  | e, target => decide (e = target)

/-! ## message.go -/

def magicNum : Nat := 0xDAB5BFFA

def protocolVerison : Int := 70012

def serviceMask : Nat := 0x01

/-- Go `type messageType int`. -/
abbrev messageType := Int

def Unknown : messageType := 0

def PongMsg : messageType := 1

def PingMsg : messageType := 2

def VersionMsg : messageType := 3

def VerackMsg : messageType := 4

/-- The byte of an ASCII character literal. -/
def ascii (c : Char) : Byte := toByte c.toNat

def versionMessageBytes : List Byte :=
  [ascii 'v', ascii 'e', ascii 'r', ascii 's', ascii 'i', ascii 'o', ascii 'n', 0x0, 0x0, 0x0,
   0x0, 0x0]

def verackMsgBytes : List Byte :=
  [ascii 'v', ascii 'e', ascii 'r', ascii 'a', ascii 'c', ascii 'k', 0x0, 0x0, 0x0, 0x0, 0x0,
   0x0]

def pongMsgBytes : List Byte :=
  [ascii 'p', ascii 'o', ascii 'n', ascii 'g', 0x0, 0x0, 0x0, 0x0, 0x0, 0x0, 0x0, 0x0]

def pingMsgBytes : List Byte :=
  [ascii 'p', ascii 'i', ascii 'n', ascii 'g', 0x0, 0x0, 0x0, 0x0, 0x0, 0x0, 0x0, 0x0]

def unknownMessageBytes : List Byte :=
  [0x0, 0x0, 0x0, 0x0, 0x0, 0x0, 0x0, 0x0, 0x0, 0x0, 0x0, 0x0]

/-- Go `(mt *messageType) Bytes()`: a `switch` with a `default` branch. -/
def messageType.Bytes (mt : messageType) : List Byte :=
  if mt = PingMsg then pingMsgBytes
  else if mt = PongMsg then pongMsgBytes
  else if mt = VersionMsg then versionMessageBytes
  else if mt = VerackMsg then verackMsgBytes
  else unknownMessageBytes

/-- Go `MessageTypeFromBytes`: two `bytes.Equal` tests and an `else`. -/
def MessageTypeFromBytes (input : List Byte) : messageType :=
  if input = versionMessageBytes then VersionMsg
  else if input = verackMsgBytes then VerackMsg
  else Unknown

structure Message where
  magicNumber : Nat
  command : messageType
  payloadLen : Nat
  checksum : Nat
  payload : Slice
deriving DecidableEq, Repr

/-- Go `(m *Message) Bytes()`. The checksum written is recomputed from the payload. -/
def Message.Bytes (m : Message) : List Byte :=
  LittleEndian.putUint32 m.magicNumber ++ messageType.Bytes m.command ++
    LittleEndian.putUint32 m.payloadLen ++
    LittleEndian.putUint32 (Btcore.checksum m.payload) ++
    m.payload.bytes

/-- Go `NewMessage`; `uint32(len(payload))` truncates. -/
def NewMessage (msgType : messageType) (payload : Slice) : Message :=
  { magicNumber := magicNum
    command := msgType
    payloadLen := payload.len % 4294967296
    payload := payload
    checksum := checksum payload }

/-- Go `messageFromBytes`. The outer `Option` is `none` when a slice expression, an array
conversion or a fixed-width read panics; `Except.error` carries the returned `error`. -/
def messageFromBytes (data : Slice) : Option (Except Error Message) :=
  if data.len < 24 then some (.error .ErrMessageSize)
  else do
    let magicNumber ← slice data.bytes 0 4 >>= LittleEndian.Uint32
    let command ← slice data.bytes 4 16 >>= toArray12
    let payloadLen ← slice data.bytes 16 20 >>= LittleEndian.Uint32
    let checksum ← slice data.bytes 20 24 >>= LittleEndian.Uint32
    let payload ← if payloadLen > 0 then (sliceFrom data.bytes 24).map Slice.mk
      else some (Slice.mk [])
    pure (.ok
      { magicNumber := magicNumber
        command := MessageTypeFromBytes command
        payloadLen := payloadLen
        checksum := checksum
        payload := payload })

/-- The 12 bytes that `net.IPv4` puts in front of an IPv4 address. -/
def v4InV6Head : List Byte := [0, 0, 0, 0, 0, 0, 0, 0, 0, 0, 0xff, 0xff]

/-- Go `net.IP.To16`: a 4-byte address is mapped into IPv6, a 16-byte address is returned as
it is, anything else gives nil. -/
def To16 (ip : Slice) : Slice :=
  if ip.len = 4 then Slice.mk (v4InV6Head ++ ip.bytes)
  else if ip.len = 16 then ip
  else Slice.nil

/-- Go `newVersionMessage`, with the clock reading `now` (`time.Now().UTC().Unix()`) and the
random `nonce` (`rand.Uint64()`) as arguments; `destinationPort` is a `uint16`. -/
def newVersionMessage (destinationIP : Slice) (destinationPort : Nat) (now : Int) (nonce : Nat) :
    Message :=
  let buf : List Byte :=
    LittleEndian.putUint32 (int32Bits protocolVerison) ++
    LittleEndian.putUint64 serviceMask ++
    LittleEndian.putUint64 (int64Bits now) ++
    LittleEndian.putUint64 serviceMask ++
    (To16 destinationIP).bytes ++
    BigEndian.putUint16 destinationPort ++
    [0x00, 0x00, 0x00, 0x00, 0x00,
     0x00, 0x00, 0x00, 0x00, 0x00,
     0x00, 0x00, 0x00, 0x00, 0x00,
     0x00, 0x00, 0x00, 0x00, 0x00,
     0x00, 0x00, 0x00, 0x00, 0x00] ++
    LittleEndian.putUint64 nonce ++
    [0x00] ++
    LittleEndian.putUint32 (int32Bits 0) ++
    [0]
  NewMessage VersionMsg (Slice.mk buf)

/-! ## client.go -/

/-- What one call `conn.Read(buffer)` gives back: the bytes placed in the buffer, or an
error. -/
inductive ReadResult where
  | data (bytes : List Byte)
  | err (e : Error)
deriving DecidableEq, Repr

/-- The socket as the client sees it: the results of the `Read` calls still to come (when
none is left the next `Read` blocks forever), the error, if any, of the `i`-th `Write` call,
and the buffers passed to `Write` so far. -/
structure Conn where
  reads : List ReadResult
  writeErr : Nat → Option Error
  written : List (List Byte)

/-- Go `conn.Write(b)`: the buffer is logged and the call reports its outcome. -/
def Conn.Write (conn : Conn) (b : List Byte) : Option Error × Conn :=
  (conn.writeErr conn.written.length, { conn with written := conn.written ++ [b] })

/-- How a call that may block ends: it returns an `error` (`none` is the nil error), it waits
forever on a `Read`, or it panics. -/
inductive Outcome where
  | returned (err : Option Error)
  | blocked
  | panicked
deriving DecidableEq, Repr

/-- Go `sendMessage`. -/
def Client.sendMessage (conn : Conn) (msg : Message) : Option Error × Conn :=
  match conn.Write msg.Bytes with
  | (some err, conn1) => (some (Error.join Error.ErrMessageSend err), conn1)
  | (none, conn1) => (none, conn1)

/-- Go `readMessage`, given what its `conn.Read(buffer)` call gave back; the buffer has 1024
bytes, so `buffer[:n]` never holds more. The outer `Option` is as in `messageFromBytes`. -/
def Client.readMessage : ReadResult → Option (Except Error Message)
  | .err e => some (.error e)
  | .data bytes => messageFromBytes (Slice.mk (bytes.take 1024))

/-- The `Read` result `r` makes `readMessage` return a message, with no error, whose command
is `k`. -/
def ReadResult.decodesTo (r : ReadResult) (k : messageType) : Prop :=
  ∃ m, Client.readMessage r = some (.ok m) ∧ m.command = k

/-- The `for` loop of Go `handshake`, one `Read` result per iteration. -/
def Client.handshakeLoop (writeErr : Nat → Option Error) :
    List ReadResult → List (List Byte) → Bool → Bool → Outcome × Conn
  | [], written, _, _ => (Outcome.blocked, ⟨[], writeErr, written⟩)
  | r :: reads, written, verackSeen, versionSeen =>
    match Client.readMessage r with
    | none => (Outcome.panicked, ⟨reads, writeErr, written⟩)
    | some (.error err) =>
      (Outcome.returned (some (Error.join Error.ErrHandshake err)), ⟨reads, writeErr, written⟩)
    | some (.ok msg) =>
      if msg.command = VersionMsg then
        match Client.sendMessage ⟨reads, writeErr, written⟩ (NewMessage VerackMsg Slice.nil) with
        | (some err, conn) =>
          (Outcome.returned (some (Error.join Error.ErrHandshake err)), conn)
        | (none, conn) =>
          let versionSeen := true
          if verackSeen && versionSeen then (Outcome.returned none, conn)
          else Client.handshakeLoop writeErr reads conn.written verackSeen versionSeen
      else if msg.command = VerackMsg then
        let verackSeen := true
        if verackSeen && versionSeen then (Outcome.returned none, ⟨reads, writeErr, written⟩)
        else Client.handshakeLoop writeErr reads written verackSeen versionSeen
      else
        (Outcome.returned (some (Error.join Error.ErrHandshake Error.ErrUnexpectedMessageType)),
          ⟨reads, writeErr, written⟩)

/-- Go `handshake`; `ip` and `port` are `addr.IP` and `addr.Port`, `now` and `nonce` the
clock reading and the random number drawn by `newVersionMessage`. -/
def Client.handshake (ip : Slice) (port : Nat) (now : Int) (nonce : Nat) (conn : Conn) :
    Outcome × Conn :=
  let msg := newVersionMessage ip (port % 65536) now nonce
  match conn.Write msg.Bytes with
  | (some err, conn1) => (Outcome.returned (some (Error.join Error.ErrHandshake err)), conn1)
  | (none, conn1) => Client.handshakeLoop conn1.writeErr conn1.reads conn1.written false false

/-- The event that a pass through the `select` of Go `Connect` receives. -/
inductive SelectEvent where
  | ctxDone
  | msg (m : Message)
  | err (e : Error)
deriving DecidableEq, Repr

/-- One pass through the `for`/`select` loop of Go `Connect`: `some e` when `Connect` returns
`e`, `none` when the loop goes round again. The result of `sendMessage` is dropped, as in the
source. -/
def Client.dispatchStep (conn : Conn) : SelectEvent → Option Error × Conn
  | .ctxDone => (some Error.ErrContext, conn)
  | .msg m =>
    if m.command = PingMsg then
      (none, (Client.sendMessage conn (NewMessage PongMsg m.payload)).2)
    else (none, conn)
  | .err e => (some (Error.join Error.ErrMessageReceive e), conn)

/-- The `for`/`select` loop of Go `Connect`, driven by the events the `select` receives in
order: a message or an error forwarded by `readMessageAsync`, or the closing of
`ctx.Done()`. When no event is left the `select` waits forever. -/
def Client.dispatchLoop : Conn → List SelectEvent → Outcome × Conn
  | conn, [] => (Outcome.blocked, conn)
  | conn, ev :: evs =>
    match Client.dispatchStep conn ev with
    | (some err, conn1) => (Outcome.returned (some err), conn1)
    | (none, conn1) => Client.dispatchLoop conn1 evs

/-- Go `Connect`. `dial` is what `net.DialTCP` gives back, `ip` and `port` the resolved
address, `events` what the `select` receives. The second component is the socket, when one
was opened. -/
def Client.Connect (dial : Except Error Conn) (ip : Slice) (port : Nat) (now : Int)
    (nonce : Nat) (events : List SelectEvent) : Outcome × Option Conn :=
  match dial with
  | .error err => (Outcome.returned (some err), none)
  | .ok conn =>
    match Client.handshake ip port now nonce conn with
    | (Outcome.returned none, conn1) =>
      ((Client.dispatchLoop conn1 events).1, some (Client.dispatchLoop conn1 events).2)
    | (out, conn1) => (out, some conn1)

/-- The state of a `context.Context` that the client can observe: whether the channel that
`Done()` returns is closed. -/
structure Context where
  done : Bool
deriving DecidableEq, Repr

/-- Go `ctx.Done()`: returns the channel, here its state, and changes nothing. -/
def Context.Done (ctx : Context) : Bool := ctx.done

/-- Go `Client` without its logger; `ctx` is nil until `Connect` stores its argument. -/
structure Client where
  addr : String
  port : Nat
  ctx : Option Context
deriving DecidableEq, Repr

/-- Go `Disconnect`: the body is the expression statement `c.ctx.Done()`, whose value is
dropped. `none` is the nil-pointer panic of a client whose `ctx` is nil. -/
def Client.Disconnect (c : Client) : Option Client :=
  match c.ctx with
  | none => none
  | some ctx =>
    let _ := ctx.Done
    some c

/-- Whether the case `<-c.ctx.Done()` of the `select` in `Connect` can be taken. -/
def Client.ctxDoneReady (c : Client) : Bool :=
  match c.ctx with
  | none => false
  | some ctx => ctx.Done

/-! ## Vocabulary for the statements -/

/-- The command of the message that `readMessage` makes of a `Read` result, when it returns a
message. -/
def ReadResult.kind (r : ReadResult) : Option messageType :=
  match Client.readMessage r with
  | some (.ok m) => some m.command
  | _ => none

/-- The number of `Read` results in `rs` that decode to a version message. -/
def countVersion (rs : List ReadResult) : Nat :=
  rs.countP (fun r => decide (r.kind = some VersionMsg))

/-- The version payload as the protocol description lays it out, with an address-from block
of `addrFrom` zero bytes: version, services, timestamp, receiver services, receiver address,
receiver port, address-from, nonce, user-agent length, start height, relay flag. -/
def versionPayloadLayout (addrFrom : Nat) (ip : Slice) (port : Nat) (t : Int) (n : Nat) :
    List Byte :=
  LittleEndian.putUint32 (int32Bits 70012) ++ LittleEndian.putUint64 1 ++
    LittleEndian.putUint64 (int64Bits t) ++ LittleEndian.putUint64 1 ++ (To16 ip).bytes ++
    BigEndian.putUint16 port ++ List.replicate addrFrom 0 ++ LittleEndian.putUint64 n ++
    [0] ++ LittleEndian.putUint32 (int32Bits 0) ++ [0]

/-- The facts recorded about a run `res` of the handshake loop that started with the write
log `written` and the two flags, and took the `Read` results `consumed`: the verack frames
written, what a nil result implies, where the run stopped, what had been written before each
`Read`, what a failed `Read` or `Write` leads to, and that only the last `Write` can have
failed. -/
def LoopRun (writeErr : Nat → Option Error) (written : List (List Byte))
    (verackSeen versionSeen : Bool) (res : Outcome × Conn) (consumed : List ReadResult) :
    Prop :=
  res.2.written =
    written ++ List.replicate (countVersion consumed) (NewMessage VerackMsg Slice.nil).Bytes ∧
  (res.1 = Outcome.returned none →
    (versionSeen = true ∨ ∃ r ∈ consumed, r.decodesTo VersionMsg) ∧
    (verackSeen = true ∨ ∃ r ∈ consumed, r.decodesTo VerackMsg)) ∧
  (∀ init last, consumed = init ++ [last] →
    (∀ r ∈ init, r.decodesTo VersionMsg ∨ r.decodesTo VerackMsg) ∧
    ¬ ((versionSeen = true ∨ ∃ r ∈ init, r.decodesTo VersionMsg) ∧
       (verackSeen = true ∨ ∃ r ∈ init, r.decodesTo VerackMsg))) ∧
  (∀ j, j < consumed.length →
    Client.handshakeLoop writeErr (consumed.take j) written verackSeen versionSeen =
      (Outcome.blocked, ⟨[], writeErr, written ++
        List.replicate (countVersion (consumed.take j)) (NewMessage VerackMsg Slice.nil).Bytes⟩)) ∧
  (∀ r ∈ consumed, ∀ err, Client.readMessage r = some (.error err) →
    res.1 = Outcome.returned (some (Error.join Error.ErrHandshake err))) ∧
  (∀ i err, i < countVersion consumed → writeErr (written.length + i) = some err →
    res.1 = Outcome.returned
      (some (Error.join Error.ErrHandshake (Error.join Error.ErrMessageSend err)))) ∧
  (∀ i, i + 1 < countVersion consumed → writeErr (written.length + i) = none)

/-! ## Helper lemmas -/

theorem Slice.bytes_mk (bs : List Byte) : (Slice.mk bs).bytes = bs := rfl

theorem slice_eq_some (data : List Byte) (lo hi : Nat) (h1 : lo ≤ hi) (h2 : hi ≤ data.length) :
    slice data lo hi = some ((data.take hi).drop lo) := by
  simp [slice, h1, h2]

theorem slice_length (data : List Byte) (lo hi : Nat) (h2 : hi ≤ data.length) :
    ((data.take hi).drop lo).length = hi - lo := by
  simp [List.length_drop, List.length_take, Nat.min_eq_left h2]

theorem slice_append_mid (a b c : List Byte) :
    slice (a ++ (b ++ c)) a.length (a.length + b.length) = some b := by
  rw [slice_eq_some _ _ _ (Nat.le_add_right _ _) (by simp)]
  simp [List.take_append_eq_append_take, List.take_of_length_le]

theorem sliceFrom_append (a c : List Byte) : sliceFrom (a ++ c) a.length = some c := by
  simp [sliceFrom]

theorem putUint32_length (v : Nat) : (LittleEndian.putUint32 v).length = 4 := rfl

theorem Uint32_putUint32 (v : Nat) (h : v < 4294967296) :
    LittleEndian.Uint32 (LittleEndian.putUint32 v) = some v := by
  simp only [LittleEndian.putUint32, LittleEndian.Uint32, toByte, Option.some.injEq]
  omega

theorem Uint32_lt (b : List Byte) (v : Nat) (h : LittleEndian.Uint32 b = some v) :
    v < 4294967296 := by
  match b, h with
  | b0 :: b1 :: b2 :: b3 :: _, h =>
    simp only [LittleEndian.Uint32, Option.some.injEq] at h
    omega

theorem Uint32_isSome (b : List Byte) (h : 4 ≤ b.length) :
    ∃ v, LittleEndian.Uint32 b = some v := by
  match b, h with
  | b0 :: b1 :: b2 :: b3 :: _, _ => exact ⟨_, rfl⟩

theorem sha256_length (input : List Byte) : (sha256 input).length = 32 := by
  simp [sha256, Sha256.digest, Sha256.wordBytes]

theorem doubleSha256LE_isSome (input : List Byte) : ∃ v, doubleSha256LE input = some v := by
  unfold doubleSha256LE
  rw [slice_eq_some _ _ _ (Nat.zero_le _) (by rw [sha256_length]; omega)]
  simp only [Option.bind_eq_bind, Option.some_bind]
  apply Uint32_isSome
  simp [sha256_length]

theorem checksum_lt (p : Slice) : checksum p < 4294967296 := by
  unfold checksum
  split
  · decide
  · obtain ⟨v, hv⟩ := doubleSha256LE_isSome p.bytes
    rw [hv]
    unfold doubleSha256LE at hv
    simp only [Option.bind_eq_bind, Option.bind_eq_some] at hv
    obtain ⟨b, _, hb⟩ := hv
    exact Uint32_lt b v hb

theorem messageType_Bytes_length (k : messageType) : (messageType.Bytes k).length = 12 := by
  unfold messageType.Bytes
  split_ifs <;> rfl

theorem slice_of_eq (data pre mid post : List Byte) (lo hi : Nat)
    (hd : data = pre ++ (mid ++ post)) (hlo : pre.length = lo) (hhi : lo + mid.length = hi) :
    slice data lo hi = some mid := by
  subst hd hlo hhi
  exact slice_append_mid pre mid post

theorem sliceFrom_of_eq (data pre post : List Byte) (lo : Nat)
    (hd : data = pre ++ post) (hlo : pre.length = lo) : sliceFrom data lo = some post := by
  subst hd hlo
  exact sliceFrom_append pre post

theorem slice_Uint32_isSome (data : List Byte) (lo hi : Nat) (h : hi = lo + 4)
    (h2 : hi ≤ data.length) : ∃ v, (slice data lo hi).bind LittleEndian.Uint32 = some v := by
  rw [slice_eq_some data lo hi (by omega) h2, Option.some_bind]
  apply Uint32_isSome
  rw [slice_length data lo hi h2]
  omega

theorem Message_Bytes_length (m : Message) : m.Bytes.length = 24 + m.payload.len := by
  simp [Message.Bytes, putUint32_length, messageType_Bytes_length, Slice.len]
  omega

/-- The five fields of a serialised message, by offset. -/
theorem Message_Bytes_slices (m : Message) :
    slice m.Bytes 0 4 = some (LittleEndian.putUint32 m.magicNumber) ∧
    slice m.Bytes 4 16 = some (messageType.Bytes m.command) ∧
    slice m.Bytes 16 20 = some (LittleEndian.putUint32 m.payloadLen) ∧
    slice m.Bytes 20 24 = some (LittleEndian.putUint32 (checksum m.payload)) ∧
    sliceFrom m.Bytes 24 = some m.payload.bytes := by
  refine ⟨?_, ?_, ?_, ?_, ?_⟩
  · exact slice_of_eq _ [] _ (messageType.Bytes m.command ++
      (LittleEndian.putUint32 m.payloadLen ++
        (LittleEndian.putUint32 (checksum m.payload) ++ m.payload.bytes))) 0 4
      (by simp [Message.Bytes]) rfl rfl
  · exact slice_of_eq _ (LittleEndian.putUint32 m.magicNumber) _
      (LittleEndian.putUint32 m.payloadLen ++
        (LittleEndian.putUint32 (checksum m.payload) ++ m.payload.bytes)) 4 16
      (by simp [Message.Bytes]) rfl (by rw [messageType_Bytes_length])
  · exact slice_of_eq _ (LittleEndian.putUint32 m.magicNumber ++ messageType.Bytes m.command) _
      (LittleEndian.putUint32 (checksum m.payload) ++ m.payload.bytes) 16 20
      (by simp [Message.Bytes]) (by simp [putUint32_length, messageType_Bytes_length]) rfl
  · exact slice_of_eq _ (LittleEndian.putUint32 m.magicNumber ++ messageType.Bytes m.command ++
      LittleEndian.putUint32 m.payloadLen) _ m.payload.bytes 20 24
      (by simp [Message.Bytes]) (by simp [putUint32_length, messageType_Bytes_length]) rfl
  · exact sliceFrom_of_eq _ (LittleEndian.putUint32 m.magicNumber ++
      messageType.Bytes m.command ++ LittleEndian.putUint32 m.payloadLen ++
      LittleEndian.putUint32 (checksum m.payload)) _ 24
      (by simp [Message.Bytes]) (by simp [putUint32_length, messageType_Bytes_length])

/-- Decoding a serialised message: every header field and the payload are recovered, and the
command is what `MessageTypeFromBytes` makes of the command name. -/
theorem messageFromBytes_Bytes (k : messageType) (p : Slice) (h : p.len < 4294967296) :
    ∃ m, messageFromBytes (Slice.mk (NewMessage k p).Bytes) = some (.ok m) ∧
      m.magicNumber = magicNum ∧ m.command = MessageTypeFromBytes (messageType.Bytes k) ∧
      m.payloadLen = p.len ∧ m.checksum = checksum p ∧ m.payload.bytes = p.bytes := by
  have hlen := Message_Bytes_length (NewMessage k p)
  have e1 : slice (NewMessage k p).Bytes 0 4 = some (LittleEndian.putUint32 magicNum) :=
    (Message_Bytes_slices (NewMessage k p)).1
  have e2 : slice (NewMessage k p).Bytes 4 16 = some (messageType.Bytes k) :=
    (Message_Bytes_slices (NewMessage k p)).2.1
  have e3 : slice (NewMessage k p).Bytes 16 20 =
      some (LittleEndian.putUint32 (p.len % 4294967296)) :=
    (Message_Bytes_slices (NewMessage k p)).2.2.1
  have e4 : slice (NewMessage k p).Bytes 20 24 = some (LittleEndian.putUint32 (checksum p)) :=
    (Message_Bytes_slices (NewMessage k p)).2.2.2.1
  have e5 : sliceFrom (NewMessage k p).Bytes 24 = some p.bytes :=
    (Message_Bytes_slices (NewMessage k p)).2.2.2.2
  have hmod : p.len % 4294967296 = p.len := Nat.mod_eq_of_lt h
  have hnot : ¬ (Slice.mk (NewMessage k p).Bytes).len < 24 := by
    simp only [Slice.len, Slice.bytes, hlen]
    omega
  have h12 : toArray12 (messageType.Bytes k) = some (messageType.Bytes k) := by
    simp [toArray12, messageType_Bytes_length, List.take_of_length_le]
  simp only [messageFromBytes, hnot, if_false, Slice.bytes, e1, e2, e3, e4, e5,
    Option.bind_eq_bind, Option.some_bind, Uint32_putUint32 magicNum (by decide),
    Uint32_putUint32 _ (checksum_lt p), hmod, Uint32_putUint32 _ h, h12, Option.map_some']
  by_cases hp : p.len > 0
  · simp [hp, Slice.bytes]
  · have h0 : p.bytes = [] := by
      have : p.bytes.length = 0 := by simp only [Slice.len] at hp; omega
      exact List.length_eq_zero.mp this
    simp only [hp, if_false]
    exact ⟨_, rfl, rfl, rfl, rfl, rfl, h0.symm⟩

/-- The round trip holds for the two kinds that `MessageTypeFromBytes` recognises. -/
theorem roundtrip_version_verack (k : messageType) (p : Slice)
    (hk : k = VersionMsg ∨ k = VerackMsg) (h : p.len < 4294967296) :
    ∃ m, messageFromBytes (Slice.mk (NewMessage k p).Bytes) = some (.ok m) ∧
      m.magicNumber = (NewMessage k p).magicNumber ∧ m.command = (NewMessage k p).command ∧
      m.payloadLen = (NewMessage k p).payloadLen ∧ m.checksum = (NewMessage k p).checksum ∧
      m.payload.bytes = (NewMessage k p).payload.bytes := by
  obtain ⟨m, hm, h1, h2, h3, h4, h5⟩ := messageFromBytes_Bytes k p h
  refine ⟨m, hm, h1, ?_, ?_, h4, h5⟩
  · rw [h2]
    rcases hk with rfl | rfl
    · exact (by decide : MessageTypeFromBytes (messageType.Bytes VersionMsg) = VersionMsg)
    · exact (by decide : MessageTypeFromBytes (messageType.Bytes VerackMsg) = VerackMsg)
  · rw [h3]
    exact (Nat.mod_eq_of_lt h).symm

/-! ### The handshake loop, one iteration at a time -/

theorem decodesTo_unique (r : ReadResult) (j k : messageType) (hj : r.decodesTo j)
    (hk : r.decodesTo k) : j = k := by
  obtain ⟨m, hm, rfl⟩ := hj
  obtain ⟨n, hn, rfl⟩ := hk
  rw [hm] at hn
  cases hn
  rfl

theorem handshakeLoop_version (writeErr : Nat → Option Error) (r : ReadResult)
    (reads : List ReadResult) (written : List (List Byte)) (verackSeen versionSeen : Bool)
    (hr : r.decodesTo VersionMsg) (hw : writeErr written.length = none) :
    Client.handshakeLoop writeErr (r :: reads) written verackSeen versionSeen =
      if verackSeen then
        (Outcome.returned none,
          ⟨reads, writeErr, written ++ [(NewMessage VerackMsg Slice.nil).Bytes]⟩)
      else
        Client.handshakeLoop writeErr reads
          (written ++ [(NewMessage VerackMsg Slice.nil).Bytes]) verackSeen true := by
  obtain ⟨m, hm, hc⟩ := hr
  rw [Client.handshakeLoop]
  simp only [hm, hc, if_true, Client.sendMessage, Conn.Write, hw, Bool.and_true]

theorem handshakeLoop_verack (writeErr : Nat → Option Error) (r : ReadResult)
    (reads : List ReadResult) (written : List (List Byte)) (verackSeen versionSeen : Bool)
    (hr : r.decodesTo VerackMsg) :
    Client.handshakeLoop writeErr (r :: reads) written verackSeen versionSeen =
      if versionSeen then (Outcome.returned none, ⟨reads, writeErr, written⟩)
      else Client.handshakeLoop writeErr reads written true versionSeen := by
  obtain ⟨m, hm, hc⟩ := hr
  rw [Client.handshakeLoop]
  have hne : ¬ VerackMsg = VersionMsg := by decide
  simp only [hm, hc, hne, if_false, if_true, Bool.true_and]

theorem handshakeLoop_other (writeErr : Nat → Option Error) (r : ReadResult)
    (reads : List ReadResult) (written : List (List Byte)) (verackSeen versionSeen : Bool)
    (k : messageType) (hr : r.decodesTo k) (h1 : k ≠ VersionMsg) (h2 : k ≠ VerackMsg) :
    Client.handshakeLoop writeErr (r :: reads) written verackSeen versionSeen =
      (Outcome.returned (some (Error.join Error.ErrHandshake Error.ErrUnexpectedMessageType)),
        ⟨reads, writeErr, written⟩) := by
  obtain ⟨m, hm, hc⟩ := hr
  rw [Client.handshakeLoop]
  simp only [hm, hc, h1, h2, if_false]

/-- While the two flags cannot both become true, a run of version and verack messages keeps
the loop going, and the first message of another kind ends it with the joined error. -/
theorem handshakeLoop_unexpected (writeErr : Nat → Option Error) (hw : ∀ i, writeErr i = none)
    (r : ReadResult) (k : messageType) (rest : List ReadResult) (hr : r.decodesTo k)
    (h1 : k ≠ VersionMsg) (h2 : k ≠ VerackMsg) :
    ∀ (pre : List ReadResult) (written : List (List Byte)) (verackSeen versionSeen : Bool),
      (∀ x ∈ pre, x.decodesTo VersionMsg ∨ x.decodesTo VerackMsg) →
      ¬ ((versionSeen = true ∨ ∃ x ∈ pre, x.decodesTo VersionMsg) ∧
         (verackSeen = true ∨ ∃ x ∈ pre, x.decodesTo VerackMsg)) →
      (Client.handshakeLoop writeErr (pre ++ r :: rest) written verackSeen versionSeen).1 =
        Outcome.returned
          (some (Error.join Error.ErrHandshake Error.ErrUnexpectedMessageType)) := by
  intro pre
  induction pre with
  | nil =>
    intro written verackSeen versionSeen _ _
    rw [List.nil_append, handshakeLoop_other writeErr r rest written _ _ k hr h1 h2]
  | cons x pre ih =>
    intro written verackSeen versionSeen hall hnot
    have hx := hall x (List.mem_cons_self x pre)
    have hpre : ∀ y ∈ pre, y.decodesTo VersionMsg ∨ y.decodesTo VerackMsg :=
      fun y hy => hall y (List.mem_cons_of_mem x hy)
    rw [List.cons_append]
    rcases hx with hx | hx
    · rw [handshakeLoop_version writeErr x _ written _ _ hx (hw _)]
      have hva : verackSeen = false := by
        cases verackSeen
        · rfl
        · exact absurd ⟨Or.inr ⟨x, List.mem_cons_self x pre, hx⟩, Or.inl rfl⟩ hnot
      subst hva
      simp only [Bool.false_eq_true, if_false]
      apply ih _ _ _ hpre
      rintro ⟨_, hb⟩
      rcases hb with hb | ⟨y, hy, hyd⟩
      · exact absurd hb (by decide)
      · exact hnot ⟨Or.inr ⟨x, List.mem_cons_self x pre, hx⟩,
          Or.inr ⟨y, List.mem_cons_of_mem x hy, hyd⟩⟩
    · rw [handshakeLoop_verack writeErr x _ written _ _ hx]
      have hve : versionSeen = false := by
        cases versionSeen
        · rfl
        · exact absurd ⟨Or.inl rfl, Or.inr ⟨x, List.mem_cons_self x pre, hx⟩⟩ hnot
      subst hve
      simp only [Bool.false_eq_true, if_false]
      apply ih _ _ _ hpre
      rintro ⟨ha, _⟩
      rcases ha with ha | ⟨y, hy, hyd⟩
      · exact absurd ha (by decide)
      · exact hnot ⟨Or.inr ⟨y, List.mem_cons_of_mem x hy, hyd⟩,
          Or.inr ⟨x, List.mem_cons_self x pre, hx⟩⟩

theorem handshake_eq_loop (ip : Slice) (port : Nat) (now : Int) (nonce : Nat) (conn : Conn)
    (hw : ∀ i, conn.writeErr i = none) :
    Client.handshake ip port now nonce conn =
      Client.handshakeLoop conn.writeErr conn.reads
        (conn.written ++ [(newVersionMessage ip (port % 65536) now nonce).Bytes])
        false false := by
  simp [Client.handshake, Conn.Write, hw]

theorem To16_len (ip : Slice) (hip : ip.len = 4 ∨ ip.len = 16) : (To16 ip).len = 16 := by
  unfold To16
  rcases hip with h | h
  · rw [if_pos h]
    show (v4InV6Head ++ ip.bytes).length = 16
    have h4 : ip.bytes.length = 4 := h
    rw [List.length_append, h4]
    rfl
  · rw [if_neg (by omega), if_pos h]
    exact h

/-! ## Properties of the codec, the handshake and the dispatch step -/

/-- C1, at a failing input: the frame of `NewMessage(PingMsg, [])` decodes without error, the
magic, payload length, checksum and payload come back, but the command comes back as
`Unknown`, not `PingMsg`; the same happens for `PongMsg`. -/
theorem roundtrip_ping_command_lost :
    (∃ m, messageFromBytes (Slice.mk (NewMessage PingMsg (Slice.mk [])).Bytes) = some (.ok m) ∧
      m.command = Unknown ∧ m.command ≠ (NewMessage PingMsg (Slice.mk [])).command ∧
      m.magicNumber = (NewMessage PingMsg (Slice.mk [])).magicNumber ∧
      m.payloadLen = (NewMessage PingMsg (Slice.mk [])).payloadLen ∧
      m.checksum = (NewMessage PingMsg (Slice.mk [])).checksum ∧
      m.payload.bytes = (NewMessage PingMsg (Slice.mk [])).payload.bytes) ∧
    (∃ m, messageFromBytes (Slice.mk (NewMessage PongMsg (Slice.mk [])).Bytes) = some (.ok m) ∧
      m.command = Unknown ∧ m.command ≠ (NewMessage PongMsg (Slice.mk [])).command) := by
  refine ⟨⟨_, rfl, ?_⟩, ⟨_, rfl, ?_⟩⟩ <;> decide

/-- C2, at the failing input: for the empty and for the nil payload `checksum` returns the
constant 0x5df6e0e2, while the first four bytes 5d f6 e0 e2 of SHA256(SHA256(empty)) read as
a little-endian `uint32` are 0xe2e0f65d; the shortcut and the general computation differ. -/
theorem checksum_empty_not_double_sha :
    checksum (Slice.mk []) = 0x5df6e0e2 ∧ checksum Slice.nil = 0x5df6e0e2 ∧
    slice (sha256 (sha256 [])) 0 4 = some [0x5d, 0xf6, 0xe0, 0xe2] ∧
    doubleSha256LE [] = some 0xe2e0f65d ∧
    doubleSha256LE [] ≠ some (checksum (Slice.mk [])) := by
  decide!

/-- C3: `checksum` of the empty slice and of the nil slice is 0x5df6e0e2, and `checksum` of
the 11 ASCII bytes of "hello world" is 0xb8d462bc. -/
theorem checksum_vectors :
    checksum (Slice.mk []) = 0x5df6e0e2 ∧ checksum Slice.nil = 0x5df6e0e2 ∧
    checksum (Slice.mk [ascii 'h', ascii 'e', ascii 'l', ascii 'l', ascii 'o', ascii ' ',
      ascii 'w', ascii 'o', ascii 'r', ascii 'l', ascii 'd']) = 0xb8d462bc ∧
    [ascii 'h', ascii 'e', ascii 'l', ascii 'l', ascii 'o', ascii ' ',
      ascii 'w', ascii 'o', ascii 'r', ascii 'l', ascii 'd'] =
      [104, 101, 108, 108, 111, 32, 119, 111, 114, 108, 100] := by
  decide!

/-- C4: `messageFromBytes` returns `ErrMessageSize` and no message when the input has fewer
than 24 bytes, and returns a message and no error when it has at least 24; no slice
expression, array conversion or fixed-width read panics on any input. -/
theorem messageFromBytes_size (data : Slice) :
    (data.len < 24 → messageFromBytes data = some (.error Error.ErrMessageSize)) ∧
    (24 ≤ data.len → ∃ m, messageFromBytes data = some (.ok m)) := by
  constructor
  · intro h
    simp [messageFromBytes, h]
  · intro h
    have hb : 24 ≤ data.bytes.length := h
    obtain ⟨magic, hmagic⟩ := slice_Uint32_isSome data.bytes 0 4 rfl (by omega)
    obtain ⟨plen, hplen⟩ := slice_Uint32_isSome data.bytes 16 20 rfl (by omega)
    obtain ⟨sum, hsum⟩ := slice_Uint32_isSome data.bytes 20 24 rfl (by omega)
    have hcmd : (slice data.bytes 4 16).bind toArray12 =
        some (((data.bytes.take 16).drop 4).take 12) := by
      rw [slice_eq_some data.bytes 4 16 (by omega) (by omega), Option.some_bind]
      have := slice_length data.bytes 4 16 (by omega)
      simp only [toArray12, this]
      rfl
    have hfrom : sliceFrom data.bytes 24 = some (data.bytes.drop 24) := by
      simp [sliceFrom, hb]
    simp only [messageFromBytes, Nat.not_lt.mpr h, if_false, Option.bind_eq_bind, hmagic,
      hplen, hsum, hcmd, hfrom, Option.some_bind, Option.map_some']
    by_cases hp : plen > 0
    · simp only [hp, if_true, Option.some_bind]
      exact ⟨_, rfl⟩
    · simp only [hp, if_false, Option.some_bind]
      exact ⟨_, rfl⟩

/-- C4 at concrete inputs: a 3-byte input is rejected with `ErrMessageSize`, a 24-byte input
is parsed. -/
theorem messageFromBytes_size_witness :
    messageFromBytes (Slice.mk [1, 2, 3]) = some (.error Error.ErrMessageSize) ∧
    ∃ m, messageFromBytes (Slice.mk (List.replicate 24 0)) = some (.ok m) :=
  ⟨(messageFromBytes_size (Slice.mk [1, 2, 3])).1 (by decide),
   (messageFromBytes_size (Slice.mk (List.replicate 24 0))).2 (by decide)⟩

/-- C5: for every kind `k` and payload `p` shorter than 2^32 bytes, the frame
`NewMessage(k, p).Bytes()` has 24 + len(p) bytes; bytes 0..3 are fa bf b5 da, the
little-endian magic 0xDAB5BFFA; bytes 4..15 are the command name of `k`; bytes 16..19 are the
little-endian len(p); bytes 20..23 are the little-endian checksum(p); the rest is `p`. -/
theorem NewMessage_Bytes_layout (k : messageType) (p : Slice) (h : p.len < 4294967296) :
    (NewMessage k p).Bytes.length = 24 + p.len ∧
    slice (NewMessage k p).Bytes 0 4 = some [0xfa, 0xbf, 0xb5, 0xda] ∧
    (slice (NewMessage k p).Bytes 0 4).bind LittleEndian.Uint32 = some 0xDAB5BFFA ∧
    slice (NewMessage k p).Bytes 4 16 = some (messageType.Bytes k) ∧
    slice (NewMessage k p).Bytes 16 20 = some (LittleEndian.putUint32 p.len) ∧
    (slice (NewMessage k p).Bytes 16 20).bind LittleEndian.Uint32 = some p.len ∧
    slice (NewMessage k p).Bytes 20 24 = some (LittleEndian.putUint32 (checksum p)) ∧
    (slice (NewMessage k p).Bytes 20 24).bind LittleEndian.Uint32 = some (checksum p) ∧
    sliceFrom (NewMessage k p).Bytes 24 = some p.bytes := by
  have hmod : p.len % 4294967296 = p.len := Nat.mod_eq_of_lt h
  have e1 : slice (NewMessage k p).Bytes 0 4 = some (LittleEndian.putUint32 magicNum) :=
    (Message_Bytes_slices (NewMessage k p)).1
  have e2 : slice (NewMessage k p).Bytes 4 16 = some (messageType.Bytes k) :=
    (Message_Bytes_slices (NewMessage k p)).2.1
  have e3 : slice (NewMessage k p).Bytes 16 20 =
      some (LittleEndian.putUint32 (p.len % 4294967296)) :=
    (Message_Bytes_slices (NewMessage k p)).2.2.1
  have e4 : slice (NewMessage k p).Bytes 20 24 = some (LittleEndian.putUint32 (checksum p)) :=
    (Message_Bytes_slices (NewMessage k p)).2.2.2.1
  have e5 : sliceFrom (NewMessage k p).Bytes 24 = some p.bytes :=
    (Message_Bytes_slices (NewMessage k p)).2.2.2.2
  rw [hmod] at e3
  refine ⟨Message_Bytes_length _, ?_, ?_, e2, e3, ?_, e4, ?_, e5⟩
  · rw [e1]; decide
  · rw [e1, Option.some_bind]; decide
  · rw [e3, Option.some_bind]; exact Uint32_putUint32 _ h
  · rw [e4, Option.some_bind]; exact Uint32_putUint32 _ (checksum_lt p)

/-- C5 at a concrete input: the frame of a version message with the three-byte payload
1 2 3. -/
theorem NewMessage_Bytes_layout_witness :
    (NewMessage VersionMsg (Slice.mk [1, 2, 3])).Bytes.length = 24 + 3 ∧
    slice (NewMessage VersionMsg (Slice.mk [1, 2, 3])).Bytes 4 16 = some versionMessageBytes ∧
    (slice (NewMessage VersionMsg (Slice.mk [1, 2, 3])).Bytes 16 20).bind LittleEndian.Uint32 =
      some 3 ∧
    sliceFrom (NewMessage VersionMsg (Slice.mk [1, 2, 3])).Bytes 24 = some [1, 2, 3] :=
  have h := NewMessage_Bytes_layout VersionMsg (Slice.mk [1, 2, 3]) (by decide)
  ⟨h.1, h.2.2.2.1, h.2.2.2.2.2.1, h.2.2.2.2.2.2.2.2⟩

/-- C6, at the failing inputs: `MessageTypeFromBytes` maps the 12-byte names "ping" and
"pong" to `Unknown`, not to `PingMsg` and `PongMsg`, so decoding does not invert
`messageType.Bytes` on these two kinds. -/
theorem MessageTypeFromBytes_ping_pong :
    MessageTypeFromBytes pingMsgBytes = Unknown ∧ MessageTypeFromBytes pongMsgBytes = Unknown ∧
    MessageTypeFromBytes (messageType.Bytes PingMsg) ≠ PingMsg ∧
    MessageTypeFromBytes (messageType.Bytes PongMsg) ≠ PongMsg := by
  decide

/-- The part of the decoding table that the code implements: "version", "verack", and
`Unknown` for every other input. -/
theorem MessageTypeFromBytes_table (input : List Byte) :
    MessageTypeFromBytes versionMessageBytes = VersionMsg ∧
    MessageTypeFromBytes verackMsgBytes = VerackMsg ∧
    (input ≠ versionMessageBytes → input ≠ verackMsgBytes →
      MessageTypeFromBytes input = Unknown) := by
  refine ⟨by decide, by decide, ?_⟩
  intro h1 h2
  simp [MessageTypeFromBytes, h1, h2]

/-- C7: `messageType.Bytes` maps `PingMsg`, `PongMsg`, `VersionMsg` and `VerackMsg` to the
ASCII names "ping", "pong", "version" and "verack", padded with zero bytes to 12 bytes; it
maps `Unknown` and every value outside the enumeration to 12 zero bytes; and no two of the
five enumerated kinds share a name. -/
theorem messageType_Bytes_table :
    messageType.Bytes PingMsg = [112, 105, 110, 103, 0, 0, 0, 0, 0, 0, 0, 0] ∧
    messageType.Bytes PongMsg = [112, 111, 110, 103, 0, 0, 0, 0, 0, 0, 0, 0] ∧
    messageType.Bytes VersionMsg = [118, 101, 114, 115, 105, 111, 110, 0, 0, 0, 0, 0] ∧
    messageType.Bytes VerackMsg = [118, 101, 114, 97, 99, 107, 0, 0, 0, 0, 0, 0] ∧
    messageType.Bytes Unknown = List.replicate 12 0 ∧
    (∀ k : messageType, k ≠ PingMsg → k ≠ PongMsg → k ≠ VersionMsg → k ≠ VerackMsg →
      messageType.Bytes k = List.replicate 12 0) ∧
    (∀ a ∈ [Unknown, PongMsg, PingMsg, VersionMsg, VerackMsg],
      ∀ b ∈ [Unknown, PongMsg, PingMsg, VersionMsg, VerackMsg],
        messageType.Bytes a = messageType.Bytes b → a = b) := by
  refine ⟨by decide, by decide, by decide, by decide, by decide, ?_, by decide⟩
  intro k h1 h2 h3 h4
  simp only [messageType.Bytes, h1, h2, h3, h4, if_false]
  decide

/-- C7 at concrete inputs: the out-of-enumeration value 7 has the all-zero name, and the
injectivity statement instantiated at `VerackMsg` and `PongMsg`. -/
theorem messageType_Bytes_table_witness :
    messageType.Bytes 7 = List.replicate 12 0 ∧
    (messageType.Bytes VerackMsg = messageType.Bytes PongMsg → VerackMsg = PongMsg) :=
  ⟨messageType_Bytes_table.2.2.2.2.2.1 7 (by decide) (by decide) (by decide) (by decide),
   messageType_Bytes_table.2.2.2.2.2.2 VerackMsg (by decide) PongMsg (by decide)⟩

/-- C8: with every write succeeding, the handshake returns nil when the peer's first two
messages are version then verack, and when they are verack then version; and when the peer
sends version or verack messages that do not yet complete the handshake and then a message
of any other kind, the handshake returns an error that wraps both `ErrHandshake` and
`ErrUnexpectedMessageType`. -/
theorem handshake_order_independence (ip : Slice) (port : Nat) (now : Int) (nonce : Nat)
    (conn : Conn) (hw : ∀ i, conn.writeErr i = none) :
    (∀ r1 r2 rest, conn.reads = r1 :: r2 :: rest → r1.decodesTo VersionMsg →
      r2.decodesTo VerackMsg →
      (Client.handshake ip port now nonce conn).1 = Outcome.returned none) ∧
    (∀ r1 r2 rest, conn.reads = r1 :: r2 :: rest → r1.decodesTo VerackMsg →
      r2.decodesTo VersionMsg →
      (Client.handshake ip port now nonce conn).1 = Outcome.returned none) ∧
    (∀ pre r k rest, conn.reads = pre ++ r :: rest →
      (∀ x ∈ pre, x.decodesTo VersionMsg ∨ x.decodesTo VerackMsg) →
      ¬ ((∃ x ∈ pre, x.decodesTo VersionMsg) ∧ (∃ x ∈ pre, x.decodesTo VerackMsg)) →
      r.decodesTo k → k ≠ VersionMsg → k ≠ VerackMsg →
      ∃ e, (Client.handshake ip port now nonce conn).1 = Outcome.returned (some e) ∧
        e.Is Error.ErrHandshake = true ∧ e.Is Error.ErrUnexpectedMessageType = true) := by
  rw [handshake_eq_loop ip port now nonce conn hw]
  refine ⟨?_, ?_, ?_⟩
  · intro r1 r2 rest hreads h1 h2
    rw [hreads, handshakeLoop_version _ r1 _ _ _ _ h1 (hw _)]
    simp only [Bool.false_eq_true, if_false]
    rw [handshakeLoop_verack _ r2 _ _ _ _ h2]
    simp
  · intro r1 r2 rest hreads h1 h2
    rw [hreads, handshakeLoop_verack _ r1 _ _ _ _ h1]
    simp only [Bool.false_eq_true, if_false]
    rw [handshakeLoop_version _ r2 _ _ _ _ h2 (hw _)]
    simp
  · intro pre r k rest hreads hall hnot hr h1 h2
    refine ⟨Error.join Error.ErrHandshake Error.ErrUnexpectedMessageType, ?_, by decide,
      by decide⟩
    rw [hreads]
    apply handshakeLoop_unexpected conn.writeErr hw r k rest hr h1 h2 pre _ false false hall
    rintro ⟨ha, hb⟩
    rcases ha with ha | ha
    · exact absurd ha (by decide)
    · rcases hb with hb | hb
      · exact absurd hb (by decide)
      · exact hnot ⟨ha, hb⟩

/-- C8 at concrete inputs: a peer that sends version, verack; one that sends verack, version;
and one that sends verack and then ping. -/
theorem handshake_order_independence_witness :
    (Client.handshake (Slice.mk [127, 0, 0, 1]) 18444 1700000000 7
      ⟨[ReadResult.data (NewMessage VersionMsg (Slice.mk [1, 2, 3])).Bytes,
        ReadResult.data (NewMessage VerackMsg Slice.nil).Bytes], fun _ => none, []⟩).1 =
      Outcome.returned none ∧
    (Client.handshake (Slice.mk [127, 0, 0, 1]) 18444 1700000000 7
      ⟨[ReadResult.data (NewMessage VerackMsg Slice.nil).Bytes,
        ReadResult.data (NewMessage VersionMsg (Slice.mk [1, 2, 3])).Bytes],
        fun _ => none, []⟩).1 = Outcome.returned none ∧
    (∃ e, (Client.handshake (Slice.mk [127, 0, 0, 1]) 18444 1700000000 7
      ⟨[ReadResult.data (NewMessage VerackMsg Slice.nil).Bytes,
        ReadResult.data (NewMessage PingMsg Slice.nil).Bytes], fun _ => none, []⟩).1 =
        Outcome.returned (some e) ∧
      e.Is Error.ErrHandshake = true ∧ e.Is Error.ErrUnexpectedMessageType = true) :=
  ⟨(handshake_order_independence _ _ _ _ _ (fun _ => rfl)).1 _ _ [] rfl
      ⟨_, rfl, rfl⟩ ⟨_, rfl, rfl⟩,
   (handshake_order_independence _ _ _ _ _ (fun _ => rfl)).2.1 _ _ [] rfl
      ⟨_, rfl, rfl⟩ ⟨_, rfl, rfl⟩,
   (handshake_order_independence _ _ _ _ _ (fun _ => rfl)).2.2
      [ReadResult.data (NewMessage VerackMsg Slice.nil).Bytes]
      (ReadResult.data (NewMessage PingMsg Slice.nil).Bytes) Unknown [] rfl
      (fun x hx => Or.inr (by
        rw [List.mem_singleton.mp hx]
        exact ⟨_, rfl, rfl⟩))
      (fun h => by
        obtain ⟨⟨x, hx, hd⟩, _⟩ := h
        rw [List.mem_singleton.mp hx] at hd
        have := decodesTo_unique _ _ _ hd ⟨_, rfl, rfl⟩
        exact absurd this (show ¬ VersionMsg = VerackMsg by decide))
      ⟨_, rfl, rfl⟩ (by decide) (by decide)⟩

/-- C9: when the dispatch step receives a decoded message whose command is `PingMsg`, with
payload `P`, it makes exactly one `Write`, of the frame `NewMessage(PongMsg, P).Bytes()`,
whose command field is the "pong" name and whose bytes from offset 24 on are `P`, and the
loop goes on; when it receives a message of any other kind it writes nothing. -/
theorem dispatchStep_ping_pong (conn : Conn) (m : Message) :
    (m.command = PingMsg →
      (Client.dispatchStep conn (SelectEvent.msg m)).2.written =
        conn.written ++ [(NewMessage PongMsg m.payload).Bytes] ∧
      slice (NewMessage PongMsg m.payload).Bytes 4 16 = some pongMsgBytes ∧
      sliceFrom (NewMessage PongMsg m.payload).Bytes 24 = some m.payload.bytes ∧
      (Client.dispatchStep conn (SelectEvent.msg m)).1 = none) ∧
    (m.command ≠ PingMsg →
      (Client.dispatchStep conn (SelectEvent.msg m)).2.written = conn.written ∧
      (Client.dispatchStep conn (SelectEvent.msg m)).1 = none) := by
  constructor
  · intro h
    refine ⟨?_, ?_, ?_, ?_⟩
    · simp only [Client.dispatchStep, h, if_true, Client.sendMessage, Conn.Write]
      cases conn.writeErr conn.written.length <;> rfl
    · exact (Message_Bytes_slices (NewMessage PongMsg m.payload)).2.1
    · exact (Message_Bytes_slices (NewMessage PongMsg m.payload)).2.2.2.2
    · simp only [Client.dispatchStep, h, if_true]
  · intro h
    simp only [Client.dispatchStep, h, if_false, and_self]

/-- C9 at concrete inputs: a ping with the payload 9 9 is answered with one pong frame; a
verack is not answered. -/
theorem dispatchStep_ping_pong_witness :
    (Client.dispatchStep ⟨[], fun _ => none, []⟩
      (SelectEvent.msg ⟨magicNum, PingMsg, 2, 0, Slice.mk [9, 9]⟩)).2.written =
      [] ++ [(NewMessage PongMsg (Slice.mk [9, 9])).Bytes] ∧
    (Client.dispatchStep ⟨[], fun _ => none, []⟩
      (SelectEvent.msg (NewMessage VerackMsg Slice.nil))).2.written = [] :=
  ⟨((dispatchStep_ping_pong ⟨[], fun _ => none, []⟩
      ⟨magicNum, PingMsg, 2, 0, Slice.mk [9, 9]⟩).1 rfl).1,
   ((dispatchStep_ping_pong ⟨[], fun _ => none, []⟩
      (NewMessage VerackMsg Slice.nil)).2 (by decide)).1⟩

/-- C10: for every destination IP of 4 or of 16 bytes, every port, clock reading and nonce,
`newVersionMessage` returns a message with command `VersionMsg`, magic 0xDAB5BFFA,
`payloadLen` 85 and a payload of exactly 85 bytes. -/
theorem newVersionMessage_length (ip : Slice) (port : Nat) (now : Int) (nonce : Nat)
    (hip : ip.len = 4 ∨ ip.len = 16) :
    (newVersionMessage ip port now nonce).command = VersionMsg ∧
    (newVersionMessage ip port now nonce).magicNumber = 0xDAB5BFFA ∧
    (newVersionMessage ip port now nonce).payloadLen = 85 ∧
    (newVersionMessage ip port now nonce).payload.len = 85 := by
  have h16 : (To16 ip).bytes.length = 16 := To16_len ip hip
  simp [newVersionMessage, NewMessage, Slice.len, Slice.bytes_mk, LittleEndian.putUint64,
    putUint32_length, BigEndian.putUint16, h16, magicNum]

/-- C10 at concrete inputs: the IPv4 address 127.0.0.1 and the IPv6 loopback address. -/
theorem newVersionMessage_length_witness :
    (newVersionMessage (Slice.mk [127, 0, 0, 1]) 8333 1700000000 42).payloadLen = 85 ∧
    (newVersionMessage (Slice.mk (List.replicate 15 0 ++ [1])) 8333 (-1) 42).payload.len =
      85 :=
  ⟨(newVersionMessage_length (Slice.mk [127, 0, 0, 1]) 8333 1700000000 42
      (Or.inl rfl)).2.2.1,
   (newVersionMessage_length (Slice.mk (List.replicate 15 0 ++ [1])) 8333 (-1) 42
      (Or.inr (by decide))).2.2.2⟩

/-- C12: for every kind `k` and payload `p` shorter than 2^32 bytes, `NewMessage(k, p)` has
magic 0xDAB5BFFA, command `k`, payload `p`, `payloadLen` equal to len(p) and `checksum` equal
to checksum(p). -/
theorem NewMessage_fields (k : messageType) (p : Slice) (h : p.len < 4294967296) :
    (NewMessage k p).magicNumber = 0xDAB5BFFA ∧ (NewMessage k p).command = k ∧
    (NewMessage k p).payload = p ∧ (NewMessage k p).payloadLen = p.len ∧
    (NewMessage k p).checksum = checksum p :=
  ⟨rfl, rfl, rfl, Nat.mod_eq_of_lt h, rfl⟩

/-- C12 at a concrete input: a ping message with an eight-byte payload. -/
theorem NewMessage_fields_witness :
    (NewMessage PingMsg (Slice.mk [1, 2, 3, 4, 5, 6, 7, 8])).payloadLen = 8 ∧
    (NewMessage PingMsg (Slice.mk [1, 2, 3, 4, 5, 6, 7, 8])).command = PingMsg :=
  ⟨(NewMessage_fields PingMsg (Slice.mk [1, 2, 3, 4, 5, 6, 7, 8]) (by decide)).2.2.2.1,
   (NewMessage_fields PingMsg (Slice.mk [1, 2, 3, 4, 5, 6, 7, 8]) (by decide)).2.1⟩

/-! ### Decoding, field by field -/

theorem take_eq_take_append (l : List Byte) (lo hi : Nat) (h : lo ≤ hi) :
    l.take hi = l.take lo ++ (l.take hi).drop lo := by
  have h1 := (List.take_append_drop lo (l.take hi)).symm
  rw [List.take_take, Nat.min_eq_left h] at h1
  exact h1

/-- A frame is its four header fields followed by the bytes from offset 24 on. -/
theorem frame_segments (b : List Byte) :
    b = b.take 4 ++ ((b.take 16).drop 4 ++ ((b.take 20).drop 16 ++
      ((b.take 24).drop 20 ++ b.drop 24))) := by
  have h0 := (List.take_append_drop 24 b).symm
  rw [take_eq_take_append b 20 24 (by decide), take_eq_take_append b 16 20 (by decide),
    take_eq_take_append b 4 16 (by decide)] at h0
  simpa [List.append_assoc] using h0

theorem putUint32_Uint32 (l : List Byte) (v : Nat) (hl : l.length = 4)
    (h : LittleEndian.Uint32 l = some v) : LittleEndian.putUint32 v = l := by
  match l, hl, h with
  | [b0, b1, b2, b3], _, h =>
    simp only [LittleEndian.Uint32, Option.some.injEq] at h
    subst h
    simp only [LittleEndian.putUint32, toByte, List.cons.injEq, and_true]
    refine ⟨?_, ?_, ?_, ?_⟩ <;> apply Fin.ext <;> simp only [] <;> omega

/-- What `messageFromBytes` returns on an input of at least 24 bytes. -/
theorem messageFromBytes_ok (data : Slice) (h : 24 ≤ data.len) :
    ∃ magic plen sum,
      (slice data.bytes 0 4).bind LittleEndian.Uint32 = some magic ∧
      (slice data.bytes 16 20).bind LittleEndian.Uint32 = some plen ∧
      (slice data.bytes 20 24).bind LittleEndian.Uint32 = some sum ∧
      messageFromBytes data = some (.ok
        { magicNumber := magic
          command := MessageTypeFromBytes ((data.bytes.take 16).drop 4)
          payloadLen := plen
          checksum := sum
          payload := if plen > 0 then Slice.mk (data.bytes.drop 24) else Slice.mk [] }) := by
  have hb : 24 ≤ data.bytes.length := h
  obtain ⟨magic, hmagic⟩ := slice_Uint32_isSome data.bytes 0 4 rfl (by omega)
  obtain ⟨plen, hplen⟩ := slice_Uint32_isSome data.bytes 16 20 rfl (by omega)
  obtain ⟨sum, hsum⟩ := slice_Uint32_isSome data.bytes 20 24 rfl (by omega)
  have hcmd : (slice data.bytes 4 16).bind toArray12 = some ((data.bytes.take 16).drop 4) := by
    rw [slice_eq_some data.bytes 4 16 (by omega) (by omega), Option.some_bind]
    have hl := slice_length data.bytes 4 16 (by omega)
    simp only [toArray12, hl]
    rw [List.take_of_length_le (by omega)]
    rfl
  have hfrom : sliceFrom data.bytes 24 = some (data.bytes.drop 24) := by
    simp [sliceFrom, hb]
  refine ⟨magic, plen, sum, hmagic, hplen, hsum, ?_⟩
  simp only [messageFromBytes, Nat.not_lt.mpr h, if_false, Option.bind_eq_bind, hmagic,
    hplen, hsum, hcmd, hfrom, Option.some_bind, Option.map_some']
  by_cases hp : plen > 0
  · simp only [hp, if_true, Option.some_bind]
    rfl
  · simp only [hp, if_false, Option.some_bind]
    rfl

/-- C13, as stated, fails: a 24-byte frame that declares a payload of 5 bytes and a checksum
of 0 is parsed without error into a message with `payloadLen` 5, an empty payload and
`checksum` 0, which is not the checksum of the empty payload. -/
theorem parsed_invariant_counterexample :
    ∃ m, messageFromBytes (Slice.mk (LittleEndian.putUint32 magicNum ++ versionMessageBytes ++
        [5, 0, 0, 0] ++ [0, 0, 0, 0])) = some (.ok m) ∧
      m.payloadLen = 5 ∧ m.payload.len = 0 ∧ m.payloadLen ≠ m.payload.len ∧
      m.checksum = 0 ∧ m.checksum ≠ checksum m.payload := by
  refine ⟨_, rfl, ?_⟩
  decide

/-- C13, amended: for every input of at least 24 bytes whose declared payload length (bytes
16..19) is len(data) - 24 and whose declared checksum (bytes 20..23) is the checksum of
data[24:], `messageFromBytes` returns a message `m` with `m.payloadLen` = len(m.payload) and
`m.checksum` = checksum(m.payload). -/
theorem parsed_invariant (data : Slice) (h24 : 24 ≤ data.len)
    (hlen : (slice data.bytes 16 20).bind LittleEndian.Uint32 = some (data.len - 24))
    (hsum : (slice data.bytes 20 24).bind LittleEndian.Uint32 =
      some (checksum (Slice.mk (data.bytes.drop 24)))) :
    ∃ m, messageFromBytes data = some (.ok m) ∧ m.payloadLen = m.payload.len ∧
      m.checksum = checksum m.payload := by
  obtain ⟨magic, plen, sum, _, hplen, hs, hm⟩ := messageFromBytes_ok data h24
  rw [hlen] at hplen
  rw [hsum] at hs
  cases hplen
  cases hs
  refine ⟨_, hm, ?_, ?_⟩
  · by_cases hp : data.len - 24 > 0
    · simp only [hp, if_true]
      simp only [Slice.len, Slice.bytes_mk, List.length_drop]
    · simp only [hp, if_false]
      simp only [Slice.len, Slice.bytes_mk, List.length_nil] at hp ⊢
      omega
  · by_cases hp : data.len - 24 > 0
    · simp only [hp, if_true]
    · simp only [hp, if_false]
      have h0 : data.bytes.drop 24 = [] := by
        apply List.drop_eq_nil_of_le
        have : data.bytes.length = data.len := rfl
        omega
      rw [h0]

/-- C13, amended, at a concrete input: the frame of a version message with payload 1 2 3. -/
theorem parsed_invariant_witness :
    ∃ m, messageFromBytes (Slice.mk (NewMessage VersionMsg (Slice.mk [1, 2, 3])).Bytes) =
        some (.ok m) ∧
      m.payloadLen = m.payload.len ∧ m.checksum = checksum m.payload :=
  parsed_invariant (Slice.mk (NewMessage VersionMsg (Slice.mk [1, 2, 3])).Bytes) (by decide)
    (by decide) (by decide!)

/-- C17: for every input of at least 24 bytes `messageFromBytes` returns a message whose
magic, `payloadLen` and `checksum` are the little-endian `uint32` values at bytes 0..3,
16..19 and 20..23; when the declared length is greater than 0 its payload is data[24:], all
the bytes after the header, and when the declared length is 0 its payload is empty, whatever
follows the header. -/
theorem messageFromBytes_fields (data : Slice) (h : 24 ≤ data.len) :
    ∃ m, messageFromBytes data = some (.ok m) ∧
      (slice data.bytes 0 4).bind LittleEndian.Uint32 = some m.magicNumber ∧
      (slice data.bytes 16 20).bind LittleEndian.Uint32 = some m.payloadLen ∧
      (slice data.bytes 20 24).bind LittleEndian.Uint32 = some m.checksum ∧
      (m.payloadLen > 0 → sliceFrom data.bytes 24 = some m.payload.bytes ∧
        m.payload = Slice.mk (data.bytes.drop 24)) ∧
      (m.payloadLen = 0 → m.payload = Slice.mk []) := by
  obtain ⟨magic, plen, sum, hmagic, hplen, hsum, hm⟩ := messageFromBytes_ok data h
  refine ⟨_, hm, hmagic, hplen, hsum, ?_, ?_⟩
  · intro hp
    have hp2 : plen > 0 := hp
    have hb : 24 ≤ data.bytes.length := h
    simp only [hp2, if_true, Slice.bytes_mk, sliceFrom, hb, and_self]
  · intro hp
    have hp2 : ¬ plen > 0 := by
      have : plen = 0 := hp
      omega
    simp only [hp2, if_false]

/-- C17 at concrete inputs: a header that declares one payload byte and is followed by three
bytes, and a header that declares no payload and is followed by the same three bytes. -/
theorem messageFromBytes_fields_witness :
    (∃ m, messageFromBytes (Slice.mk (LittleEndian.putUint32 magicNum ++ verackMsgBytes ++
        [1, 0, 0, 0] ++ [9, 0, 0, 0] ++ [7, 8, 9])) = some (.ok m) ∧
      m.payloadLen = 1 ∧ m.checksum = 9 ∧ m.payload = Slice.mk [7, 8, 9]) ∧
    (∃ m, messageFromBytes (Slice.mk (LittleEndian.putUint32 magicNum ++ verackMsgBytes ++
        [0, 0, 0, 0] ++ [9, 0, 0, 0] ++ [7, 8, 9])) = some (.ok m) ∧
      m.payloadLen = 0 ∧ m.payload = Slice.mk []) := by
  constructor
  · obtain ⟨m, hm, _, h2, h3, h4, _⟩ := messageFromBytes_fields
      (Slice.mk (LittleEndian.putUint32 magicNum ++ verackMsgBytes ++
        [1, 0, 0, 0] ++ [9, 0, 0, 0] ++ [7, 8, 9])) (by decide)
    have e2 : m.payloadLen = 1 := Option.some.inj (h2.symm.trans (by decide))
    have e3 : m.checksum = 9 := Option.some.inj (h3.symm.trans (by decide))
    exact ⟨m, hm, e2, e3, (h4 (by omega)).2⟩
  · obtain ⟨m, hm, _, h2, _, _, h5⟩ := messageFromBytes_fields
      (Slice.mk (LittleEndian.putUint32 magicNum ++ verackMsgBytes ++
        [0, 0, 0, 0] ++ [9, 0, 0, 0] ++ [7, 8, 9])) (by decide)
    have e2 : m.payloadLen = 0 := Option.some.inj (h2.symm.trans (by decide))
    exact ⟨m, hm, e2, h5 e2⟩

/-- C18, as stated, fails: the verack frame whose checksum field is zero is parsed into a
message with `checksum` 0, and serialising that message puts e2 e0 f6 5d, the encoding of
the checksum recomputed from the empty payload, at bytes 20..23, not 00 00 00 00. -/
theorem Bytes_checksum_counterexample :
    ∃ m, messageFromBytes (Slice.mk (LittleEndian.putUint32 magicNum ++ verackMsgBytes ++
        [0, 0, 0, 0] ++ [0, 0, 0, 0])) = some (.ok m) ∧
      m.checksum = 0 ∧ slice m.Bytes 20 24 = some [0xe2, 0xe0, 0xf6, 0x5d] ∧
      slice m.Bytes 20 24 ≠ some (LittleEndian.putUint32 m.checksum) := by
  refine ⟨_, rfl, ?_⟩
  decide

/-- C18, amended: for every message `m`, bytes 20..23 of `m.Bytes()` are the little-endian
encoding of checksum(m.payload), recomputed from the payload; for a message built by
`NewMessage` this is the stored `checksum` field. -/
theorem Bytes_checksum_recomputed :
    (∀ m : Message, slice m.Bytes 20 24 = some (LittleEndian.putUint32 (checksum m.payload)) ∧
      (slice m.Bytes 20 24).bind LittleEndian.Uint32 = some (checksum m.payload)) ∧
    (∀ (k : messageType) (p : Slice), slice (NewMessage k p).Bytes 20 24 =
      some (LittleEndian.putUint32 (NewMessage k p).checksum)) := by
  constructor
  · intro m
    have h := (Message_Bytes_slices m).2.2.2.1
    refine ⟨h, ?_⟩
    rw [h, Option.some_bind]
    exact Uint32_putUint32 _ (checksum_lt m.payload)
  · intro k p
    exact (Message_Bytes_slices (NewMessage k p)).2.2.2.1

/-- C20: for every frame `b` of more than 24 bytes whose command field is the "version" or
the "verack" name, whose declared payload length is len(b) - 24 and whose checksum field is
the little-endian encoding of checksum(b[24:]), `messageFromBytes(b)` returns a message, and
serialising that message with `Bytes()` gives back exactly `b`. -/
theorem Bytes_messageFromBytes (b : List Byte) (h : 24 < b.length)
    (hcmd : slice b 4 16 = some versionMessageBytes ∨ slice b 4 16 = some verackMsgBytes)
    (hlen : (slice b 16 20).bind LittleEndian.Uint32 = some (b.length - 24))
    (hsum : slice b 20 24 = some (LittleEndian.putUint32 (checksum (Slice.mk (b.drop 24))))) :
    ∃ m, messageFromBytes (Slice.mk b) = some (.ok m) ∧ m.Bytes = b := by
  have h24 : 24 ≤ (Slice.mk b).len := Nat.le_of_lt h
  obtain ⟨magic, plen, sum, hmagic, hplen, _, hm⟩ := messageFromBytes_ok (Slice.mk b) h24
  simp only [Slice.bytes_mk] at hmagic hplen hm
  rw [hlen] at hplen
  cases hplen
  have hp : b.length - 24 > 0 := by omega
  simp only [hp, if_true] at hm
  refine ⟨_, hm, ?_⟩
  rw [slice_eq_some b 0 4 (by omega) (by omega), Option.some_bind] at hmagic
  rw [slice_eq_some b 16 20 (by omega) (by omega), Option.some_bind] at hlen
  rw [slice_eq_some b 20 24 (by omega) (by omega), Option.some.injEq] at hsum
  rw [slice_eq_some b 4 16 (by omega) (by omega), Option.some.injEq, Option.some.injEq] at hcmd
  have e1 : LittleEndian.putUint32 magic = b.take 4 :=
    putUint32_Uint32 _ _ (slice_length b 0 4 (by omega)) hmagic
  have e3 : LittleEndian.putUint32 (b.length - 24) = (b.take 20).drop 16 :=
    putUint32_Uint32 _ _ (slice_length b 16 20 (by omega)) hlen
  have e2 : messageType.Bytes (MessageTypeFromBytes ((b.take 16).drop 4)) =
      (b.take 16).drop 4 := by
    rcases hcmd with hc | hc <;> rw [hc] <;> decide
  simp only [Message.Bytes, e1, e2, e3, Slice.bytes_mk, ← hsum, List.append_assoc]
  exact (frame_segments b).symm

/-- C20 at a concrete input: the 27-byte frame of a version message with payload 1 2 3. -/
theorem Bytes_messageFromBytes_witness :
    ∃ m, messageFromBytes (Slice.mk (NewMessage VersionMsg (Slice.mk [1, 2, 3])).Bytes) =
        some (.ok m) ∧
      m.Bytes = (NewMessage VersionMsg (Slice.mk [1, 2, 3])).Bytes :=
  Bytes_messageFromBytes (NewMessage VersionMsg (Slice.mk [1, 2, 3])).Bytes (by decide)
    (Or.inl (by decide)) (by decide) (by decide!)

/-- The layout that `newVersionMessage` produces, for every input: the address-from block has
25 bytes. -/
theorem newVersionMessage_payload (ip : Slice) (port : Nat) (t : Int) (n : Nat) :
    (newVersionMessage ip port t n).payload.bytes = versionPayloadLayout 25 ip port t n := rfl

/-- C11, at a failing input: for 127.0.0.1, port 8333, time 1700000000 and nonce 42 the payload
built by `newVersionMessage` is the stated concatenation with an address-from block of 25
zero bytes, 85 bytes in all; it is not the concatenation with a 26-byte block, which has 86
bytes. -/
theorem newVersionMessage_addr_from :
    (newVersionMessage (Slice.mk [127, 0, 0, 1]) 8333 1700000000 42).payload.bytes =
      versionPayloadLayout 25 (Slice.mk [127, 0, 0, 1]) 8333 1700000000 42 ∧
    (newVersionMessage (Slice.mk [127, 0, 0, 1]) 8333 1700000000 42).payload.bytes ≠
      versionPayloadLayout 26 (Slice.mk [127, 0, 0, 1]) 8333 1700000000 42 ∧
    (newVersionMessage (Slice.mk [127, 0, 0, 1]) 8333 1700000000 42).payload.len = 85 ∧
    (versionPayloadLayout 26 (Slice.mk [127, 0, 0, 1]) 8333 1700000000 42).length = 86 ∧
    slice (newVersionMessage (Slice.mk [127, 0, 0, 1]) 8333 1700000000 42).payload.bytes 46 71 =
      some (List.replicate 25 0) ∧
    slice (newVersionMessage (Slice.mk [127, 0, 0, 1]) 8333 1700000000 42).payload.bytes 71 79 =
      some (LittleEndian.putUint64 42) := by
  decide

/-- A ping frame is never answered: it decodes to a message whose command is `Unknown`, and
the dispatch step writes nothing for it. -/
theorem ping_frame_unanswered (p : Slice) (h : p.len < 4294967296) (conn : Conn) :
    ∃ m, messageFromBytes (Slice.mk (NewMessage PingMsg p).Bytes) = some (.ok m) ∧
      m.command = Unknown ∧
      (Client.dispatchStep conn (SelectEvent.msg m)).2.written = conn.written := by
  obtain ⟨m, hm, _, hc, _⟩ := messageFromBytes_Bytes PingMsg p h
  have hu : m.command = Unknown := by
    rw [hc]
    decide
  refine ⟨m, hm, hu, ?_⟩
  have hne : ¬ m.command = PingMsg := by
    rw [hu]
    decide
  simp only [Client.dispatchStep, hne, if_false]

/-- C16, at a failing input: the frame `NewMessage(PingMsg, P).Bytes()` with the eight-byte
payload 1 .. 8 is decoded without error into a message whose command is `Unknown` and whose
payload is `P`; handed to the dispatch step it causes no write at all, so no pong frame is
sent. -/
theorem ping_frame_end_to_end :
    ∃ m, messageFromBytes (Slice.mk (NewMessage PingMsg
        (Slice.mk [1, 2, 3, 4, 5, 6, 7, 8])).Bytes) = some (.ok m) ∧
      m.command = Unknown ∧ m.payload = Slice.mk [1, 2, 3, 4, 5, 6, 7, 8] ∧
      (Client.dispatchStep ⟨[], fun _ => none, []⟩ (SelectEvent.msg m)).2.written = [] ∧
      (Client.dispatchStep ⟨[], fun _ => none, []⟩ (SelectEvent.msg m)).1 = none := by
  refine ⟨_, rfl, ?_⟩
  decide

/-- For every client whose context is set, `Disconnect` returns with the client exactly as it
was. -/
theorem Disconnect_eq (c : Client) (ctx : Context) (h : c.ctx = some ctx) :
    Client.Disconnect c = some c := by
  simp only [Client.Disconnect, h]

/-- C14, at a failing input: for a client whose `Connect` is running with a context that has
not been cancelled, `Disconnect` returns the client unchanged; the `Done` channel is still
open afterwards, so the `select` of the dispatch loop still cannot take the cancellation
case. -/
theorem Disconnect_does_not_cancel :
    Client.Disconnect ⟨"127.0.0.1", 18444, some ⟨false⟩⟩ =
      some ⟨"127.0.0.1", 18444, some ⟨false⟩⟩ ∧
    Client.ctxDoneReady ⟨"127.0.0.1", 18444, some ⟨false⟩⟩ = false ∧
    (Client.Disconnect ⟨"127.0.0.1", 18444, some ⟨false⟩⟩).map Client.ctxDoneReady =
      some false :=
  ⟨rfl, rfl, rfl⟩

/-! ### Return paths of the handshake and of the dispatch loop -/

theorem Error.Is_self (e : Error) : e.Is e = true := by
  cases e <;> simp [Error.Is]

theorem Error.Is_join_left (a b : Error) : (Error.join a b).Is a = true := by
  simp [Error.Is, Error.Is_self]

theorem Error.Is_join_right (a b t : Error) (h : b.Is t = true) :
    (Error.join a b).Is t = true := by
  simp [Error.Is, h]

theorem messageFromBytes_ne_none (data : Slice) : messageFromBytes data ≠ none := by
  by_cases h : data.len < 24
  · simp [messageFromBytes, h]
  · obtain ⟨_, _, _, _, _, _, hm⟩ := messageFromBytes_ok data (Nat.le_of_not_lt h)
    rw [hm]
    exact Option.some_ne_none _

theorem readMessage_ne_none (r : ReadResult) : Client.readMessage r ≠ none := by
  cases r with
  | data bytes => exact messageFromBytes_ne_none _
  | err e => exact Option.some_ne_none _

/-- What `readMessage` can make of a `Read` result. -/
theorem readMessage_cases (r : ReadResult) :
    (∃ err, Client.readMessage r = some (.error err)) ∨ r.decodesTo VersionMsg ∨
    r.decodesTo VerackMsg ∨ ∃ k, r.decodesTo k ∧ k ≠ VersionMsg ∧ k ≠ VerackMsg := by
  cases hr : Client.readMessage r with
  | none => exact absurd hr (readMessage_ne_none r)
  | some x =>
    cases x with
    | error err => exact Or.inl ⟨err, rfl⟩
    | ok m =>
      by_cases h1 : m.command = VersionMsg
      · exact Or.inr (Or.inl ⟨m, hr, h1⟩)
      · by_cases h2 : m.command = VerackMsg
        · exact Or.inr (Or.inr (Or.inl ⟨m, hr, h2⟩))
        · exact Or.inr (Or.inr (Or.inr ⟨m.command, ⟨m, hr, rfl⟩, h1, h2⟩))

theorem handshakeLoop_error (writeErr : Nat → Option Error) (r : ReadResult)
    (reads : List ReadResult) (written : List (List Byte)) (verackSeen versionSeen : Bool)
    (err : Error) (hr : Client.readMessage r = some (.error err)) :
    Client.handshakeLoop writeErr (r :: reads) written verackSeen versionSeen =
      (Outcome.returned (some (Error.join Error.ErrHandshake err)),
        ⟨reads, writeErr, written⟩) := by
  rw [Client.handshakeLoop]
  simp only [hr]

theorem handshakeLoop_version_fail (writeErr : Nat → Option Error) (r : ReadResult)
    (reads : List ReadResult) (written : List (List Byte)) (verackSeen versionSeen : Bool)
    (err : Error) (hr : r.decodesTo VersionMsg) (hw : writeErr written.length = some err) :
    Client.handshakeLoop writeErr (r :: reads) written verackSeen versionSeen =
      (Outcome.returned
          (some (Error.join Error.ErrHandshake (Error.join Error.ErrMessageSend err))),
        ⟨reads, writeErr, written ++ [(NewMessage VerackMsg Slice.nil).Bytes]⟩) := by
  obtain ⟨m, hm, hc⟩ := hr
  rw [Client.handshakeLoop]
  simp only [hm, hc, if_true, Client.sendMessage, Conn.Write, hw]

/-- Every error that the handshake loop returns wraps `ErrHandshake`. -/
theorem handshakeLoop_wraps (writeErr : Nat → Option Error) :
    ∀ (reads : List ReadResult) (written : List (List Byte)) (verackSeen versionSeen : Bool)
      (e : Error),
      (Client.handshakeLoop writeErr reads written verackSeen versionSeen).1 =
        Outcome.returned (some e) → e.Is Error.ErrHandshake = true := by
  intro reads
  induction reads with
  | nil =>
    intro written verackSeen versionSeen e h
    simp [Client.handshakeLoop] at h
  | cons r reads ih =>
    intro written verackSeen versionSeen e h
    rcases readMessage_cases r with ⟨err, hr⟩ | hr | hr | ⟨k, hr, h1, h2⟩
    · rw [handshakeLoop_error writeErr r reads written _ _ err hr] at h
      cases h
      exact Error.Is_join_left _ _
    · cases hw : writeErr written.length with
      | some err =>
        rw [handshakeLoop_version_fail writeErr r reads written _ _ err hr hw] at h
        cases h
        exact Error.Is_join_left _ _
      | none =>
        rw [handshakeLoop_version writeErr r reads written _ _ hr hw] at h
        cases verackSeen
        · exact ih _ _ _ e h
        · simp at h
    · rw [handshakeLoop_verack writeErr r reads written _ _ hr] at h
      cases versionSeen
      · exact ih _ _ _ e h
      · simp at h
    · rw [handshakeLoop_other writeErr r reads written _ _ k hr h1 h2] at h
      cases h
      exact Error.Is_join_left _ _

theorem handshake_wraps (ip : Slice) (port : Nat) (now : Int) (nonce : Nat) (conn : Conn)
    (e : Error) (h : (Client.handshake ip port now nonce conn).1 = Outcome.returned (some e)) :
    e.Is Error.ErrHandshake = true := by
  unfold Client.handshake at h
  simp only [Conn.Write] at h
  cases hw : conn.writeErr conn.written.length with
  | some err =>
    simp only [hw] at h
    cases h
    exact Error.Is_join_left _ _
  | none =>
    simp only [hw] at h
    exact handshakeLoop_wraps _ _ _ _ _ e h

/-- The dispatch loop returns only on cancellation, with `ErrContext`, or on a reader error,
with that error joined to `ErrMessageReceive`. -/
theorem dispatchLoop_returned :
    ∀ (events : List SelectEvent) (conn : Conn) (e : Option Error),
      (Client.dispatchLoop conn events).1 = Outcome.returned e →
      (e = some Error.ErrContext ∧ SelectEvent.ctxDone ∈ events) ∨
      ∃ x, e = some (Error.join Error.ErrMessageReceive x) ∧ SelectEvent.err x ∈ events := by
  intro events
  induction events with
  | nil =>
    intro conn e h
    simp [Client.dispatchLoop] at h
  | cons ev evs ih =>
    intro conn e h
    cases ev with
    | ctxDone =>
      simp only [Client.dispatchLoop, Client.dispatchStep] at h
      cases h
      exact Or.inl ⟨rfl, List.mem_cons_self _ _⟩
    | err x =>
      simp only [Client.dispatchLoop, Client.dispatchStep] at h
      cases h
      exact Or.inr ⟨x, rfl, List.mem_cons_self _ _⟩
    | msg m =>
      have hstep : (Client.dispatchStep conn (SelectEvent.msg m)).1 = none := by
        simp only [Client.dispatchStep]
        split <;> rfl
      have hloop : Client.dispatchLoop conn (SelectEvent.msg m :: evs) =
          Client.dispatchLoop (Client.dispatchStep conn (SelectEvent.msg m)).2 evs := by
        rw [Client.dispatchLoop]
        cases hd : Client.dispatchStep conn (SelectEvent.msg m) with
        | mk a b =>
          rw [hd] at hstep
          simp only at hstep
          subst hstep
          rfl
      rw [hloop] at h
      rcases ih _ e h with ⟨h1, h2⟩ | ⟨x, h1, h2⟩
      · exact Or.inl ⟨h1, List.mem_cons_of_mem _ h2⟩
      · exact Or.inr ⟨x, h1, List.mem_cons_of_mem _ h2⟩

/-- C15: whenever `Connect` returns, what it returns is an error, never nil: the dial error;
or an error of the handshake, which wraps `ErrHandshake`; or `ErrContext`, when the `select`
received the closing of `ctx.Done()`; or an error forwarded by the reader, joined to
`ErrMessageReceive`. -/
theorem Connect_never_nil (dial : Except Error Conn) (ip : Slice) (port : Nat) (now : Int)
    (nonce : Nat) (events : List SelectEvent) (e : Option Error)
    (h : (Client.Connect dial ip port now nonce events).1 = Outcome.returned e) :
    ∃ err, e = some err ∧
      (dial = .error err ∨
       (∃ conn, dial = .ok conn ∧
          (Client.handshake ip port now nonce conn).1 = Outcome.returned (some err) ∧
          err.Is Error.ErrHandshake = true) ∨
       (err = Error.ErrContext ∧ SelectEvent.ctxDone ∈ events) ∨
       (∃ x, err = Error.join Error.ErrMessageReceive x ∧ SelectEvent.err x ∈ events ∧
          err.Is Error.ErrMessageReceive = true)) := by
  cases dial with
  | error err =>
    simp only [Client.Connect] at h
    cases h
    exact ⟨err, rfl, Or.inl rfl⟩
  | ok conn =>
    simp only [Client.Connect] at h
    cases hh : Client.handshake ip port now nonce conn with
    | mk out conn1 =>
      rw [hh] at h
      cases out with
      | returned r =>
        cases r with
        | none =>
          simp only at h
          rcases dispatchLoop_returned events conn1 e h with ⟨h1, h2⟩ | ⟨x, h1, h2⟩
          · exact ⟨_, h1, Or.inr (Or.inr (Or.inl ⟨rfl, h2⟩))⟩
          · exact ⟨_, h1, Or.inr (Or.inr (Or.inr ⟨x, rfl, h2, Error.Is_join_left _ _⟩))⟩
        | some err =>
          simp only at h
          cases h
          have hw := handshake_wraps ip port now nonce conn err (by rw [hh])
          exact ⟨err, rfl, Or.inr (Or.inl ⟨conn, rfl, by rw [hh], hw⟩)⟩
      | blocked => simp at h
      | panicked => simp at h

/-- C15 at a concrete input: the handshake succeeds, a ping is dispatched, then the context
is cancelled; `Connect` returns `ErrContext`. -/
theorem Connect_never_nil_witness :
    (Client.Connect
      (.ok ⟨[ReadResult.data (NewMessage VersionMsg (Slice.mk [1, 2, 3])).Bytes,
        ReadResult.data (NewMessage VerackMsg Slice.nil).Bytes], fun _ => none, []⟩)
      (Slice.mk [127, 0, 0, 1]) 18444 1700000000 7
      [SelectEvent.msg (NewMessage PingMsg (Slice.mk [9])), SelectEvent.ctxDone]).1 =
      Outcome.returned (some Error.ErrContext) ∧
    ∃ err, some Error.ErrContext = some err ∧ err ≠ Error.ErrChecksum := by
  have h0 : (Client.Connect
      (.ok ⟨[ReadResult.data (NewMessage VersionMsg (Slice.mk [1, 2, 3])).Bytes,
        ReadResult.data (NewMessage VerackMsg Slice.nil).Bytes], fun _ => none, []⟩)
      (Slice.mk [127, 0, 0, 1]) 18444 1700000000 7
      [SelectEvent.msg (NewMessage PingMsg (Slice.mk [9])), SelectEvent.ctxDone]).1 =
      Outcome.returned (some Error.ErrContext) := by decide!
  obtain ⟨err, h1, _⟩ := Connect_never_nil _ _ _ _ _ _ _ h0
  refine ⟨h0, err, h1, ?_⟩
  rw [← Option.some.inj h1]
  decide

/-! ### Runs of the handshake loop -/

theorem decodesTo_iff_kind (r : ReadResult) (k : messageType) :
    r.decodesTo k ↔ r.kind = some k := by
  unfold ReadResult.decodesTo ReadResult.kind
  constructor
  · rintro ⟨m, hm, hk⟩
    simp only [hm, hk]
  · intro h
    split at h
    · next m hm => exact ⟨m, hm, Option.some.inj h⟩
    · exact absurd h (by simp)

theorem countVersion_nil : countVersion [] = 0 := rfl

theorem countVersion_cons (r : ReadResult) (rs : List ReadResult) :
    countVersion (r :: rs) = countVersion [r] + countVersion rs := by
  unfold countVersion
  rw [List.countP_cons, List.countP_cons, List.countP_nil]
  omega

theorem countVersion_version (r : ReadResult) (h : r.decodesTo VersionMsg) :
    countVersion [r] = 1 := by
  have hk := (decodesTo_iff_kind r VersionMsg).mp h
  simp [countVersion, List.countP_cons, hk]

theorem countVersion_not_version (r : ReadResult) (h : ¬ r.decodesTo VersionMsg) :
    countVersion [r] = 0 := by
  have hk : ¬ r.kind = some VersionMsg := fun hk => h ((decodesTo_iff_kind r VersionMsg).mpr hk)
  simp [countVersion, List.countP_cons, hk]

theorem not_decodesTo_of_error (r : ReadResult) (err : Error) (k : messageType)
    (h : Client.readMessage r = some (.error err)) : ¬ r.decodesTo k := by
  rintro ⟨m, hm, _⟩
  rw [h] at hm
  cases hm

/-- A run that ends with the first `Read` result it takes. -/
theorem LoopRun_terminal (writeErr : Nat → Option Error) (r : ReadResult)
    (written : List (List Byte)) (verackSeen versionSeen : Bool) (out : Outcome)
    (conn1 : Conn) (hflags : ¬ (verackSeen = true ∧ versionSeen = true))
    (hw : conn1.written =
      written ++ List.replicate (countVersion [r]) (NewMessage VerackMsg Slice.nil).Bytes)
    (h3 : out = Outcome.returned none →
      (versionSeen = true ∨ r.decodesTo VersionMsg) ∧
      (verackSeen = true ∨ r.decodesTo VerackMsg))
    (h7 : ∀ err, Client.readMessage r = some (.error err) →
      out = Outcome.returned (some (Error.join Error.ErrHandshake err)))
    (h8 : ∀ err, countVersion [r] = 1 → writeErr written.length = some err →
      out = Outcome.returned
        (some (Error.join Error.ErrHandshake (Error.join Error.ErrMessageSend err)))) :
    LoopRun writeErr written verackSeen versionSeen (out, conn1) [r] := by
  have hle : countVersion [r] ≤ 1 := by
    by_cases hv : r.decodesTo VersionMsg
    · rw [countVersion_version r hv]
    · rw [countVersion_not_version r hv]
      omega
  refine ⟨hw, ?_, ?_, ?_, ?_, ?_, fun i hi => absurd hi (by omega)⟩
  · intro ho
    obtain ⟨ha, hb⟩ := h3 ho
    exact ⟨ha.imp_right (fun h => ⟨r, List.mem_singleton.mpr rfl, h⟩),
      hb.imp_right (fun h => ⟨r, List.mem_singleton.mpr rfl, h⟩)⟩
  · intro init last hl
    have hinit : init = [] := by
      cases init with
      | nil => rfl
      | cons x xs =>
        have := congrArg List.length hl
        simp at this
    subst hinit
    refine ⟨fun x hx => absurd hx (List.not_mem_nil x), ?_⟩
    rintro ⟨ha, hb⟩
    rcases ha with ha | ⟨x, hx, _⟩
    · rcases hb with hb | ⟨x, hx, _⟩
      · exact hflags ⟨hb, ha⟩
      · exact absurd hx (List.not_mem_nil x)
    · exact absurd hx (List.not_mem_nil x)
  · intro j hj
    have hj0 : j = 0 := by
      simp only [List.length_singleton] at hj
      omega
    subst hj0
    simp [Client.handshakeLoop, countVersion_nil]
  · intro x hx err hr
    rw [List.mem_singleton.mp hx] at hr
    exact h7 err hr
  · intro i err hi he
    have h1 : countVersion [r] = 1 := by
      by_cases hv : r.decodesTo VersionMsg
      · exact countVersion_version r hv
      · rw [countVersion_not_version r hv] at hi
        omega
    have hi0 : i = 0 := by omega
    subst hi0
    exact h8 err h1 he

/-- A run that takes a version or a verack message and goes on. -/
theorem LoopRun_cons (writeErr : Nat → Option Error) (r : ReadResult)
    (written written1 : List (List Byte)) (verackSeen versionSeen verackSeen1 versionSeen1 : Bool)
    (res : Outcome × Conn) (consumed : List ReadResult)
    (hflags : ¬ (verackSeen = true ∧ versionSeen = true))
    (hk : r.decodesTo VersionMsg ∨ r.decodesTo VerackMsg)
    (hstep : ∀ reads, Client.handshakeLoop writeErr (r :: reads) written verackSeen versionSeen =
      Client.handshakeLoop writeErr reads written1 verackSeen1 versionSeen1)
    (hw : written1 =
      written ++ List.replicate (countVersion [r]) (NewMessage VerackMsg Slice.nil).Bytes)
    (hwok : countVersion [r] = 1 → writeErr written.length = none)
    (hve : versionSeen1 = true ↔ (versionSeen = true ∨ r.decodesTo VersionMsg))
    (hva : verackSeen1 = true ↔ (verackSeen = true ∨ r.decodesTo VerackMsg))
    (ih : LoopRun writeErr written1 verackSeen1 versionSeen1 res consumed) :
    LoopRun writeErr written verackSeen versionSeen res (r :: consumed) := by
  obtain ⟨i2, i3, i4, i5, i7, i8, i9⟩ := ih
  have hcount : ∀ rs : List ReadResult,
      written ++ List.replicate (countVersion (r :: rs)) (NewMessage VerackMsg Slice.nil).Bytes =
      written1 ++ List.replicate (countVersion rs) (NewMessage VerackMsg Slice.nil).Bytes := by
    intro rs
    rw [hw, countVersion_cons, List.replicate_add, List.append_assoc]
  refine ⟨?_, ?_, ?_, ?_, ?_, ?_, ?_⟩
  · rw [i2, hcount]
  · intro ho
    obtain ⟨ha, hb⟩ := i3 ho
    constructor
    · rcases ha with ha | ⟨x, hx, hd⟩
      · rcases hve.mp ha with h | h
        · exact Or.inl h
        · exact Or.inr ⟨r, List.mem_cons_self _ _, h⟩
      · exact Or.inr ⟨x, List.mem_cons_of_mem _ hx, hd⟩
    · rcases hb with hb | ⟨x, hx, hd⟩
      · rcases hva.mp hb with h | h
        · exact Or.inl h
        · exact Or.inr ⟨r, List.mem_cons_self _ _, h⟩
      · exact Or.inr ⟨x, List.mem_cons_of_mem _ hx, hd⟩
  · intro init last hl
    cases init with
    | nil =>
      refine ⟨fun x hx => absurd hx (List.not_mem_nil x), ?_⟩
      rintro ⟨ha, hb⟩
      rcases ha with ha | ⟨x, hx, _⟩
      · rcases hb with hb | ⟨x, hx, _⟩
        · exact hflags ⟨hb, ha⟩
        · exact absurd hx (List.not_mem_nil x)
      · exact absurd hx (List.not_mem_nil x)
    | cons x init1 =>
      rw [List.cons_append, List.cons.injEq] at hl
      obtain ⟨hx, hl⟩ := hl
      subst hx
      obtain ⟨j1, j2⟩ := i4 init1 last hl
      constructor
      · intro y hy
        rcases List.mem_cons.mp hy with hy | hy
        · rw [hy]
          exact hk
        · exact j1 y hy
      · rintro ⟨ha, hb⟩
        apply j2
        constructor
        · rcases ha with ha | ⟨y, hy, hd⟩
          · exact Or.inl (hve.mpr (Or.inl ha))
          · rcases List.mem_cons.mp hy with hy | hy
            · rw [hy] at hd
              exact Or.inl (hve.mpr (Or.inr hd))
            · exact Or.inr ⟨y, hy, hd⟩
        · rcases hb with hb | ⟨y, hy, hd⟩
          · exact Or.inl (hva.mpr (Or.inl hb))
          · rcases List.mem_cons.mp hy with hy | hy
            · rw [hy] at hd
              exact Or.inl (hva.mpr (Or.inr hd))
            · exact Or.inr ⟨y, hy, hd⟩
  · intro j hj
    cases j with
    | zero => simp [Client.handshakeLoop, countVersion_nil]
    | succ j1 =>
      have hj1 : j1 < consumed.length := by
        simp only [List.length_cons] at hj
        omega
      rw [List.take_succ_cons, hstep, i5 j1 hj1, hcount]
  · intro x hx err hr
    rcases List.mem_cons.mp hx with hx | hx
    · rw [hx] at hr
      rcases hk with hk | hk
      · exact absurd hk (not_decodesTo_of_error r err _ hr)
      · exact absurd hk (not_decodesTo_of_error r err _ hr)
    · exact i7 x hx err hr
  · intro i err hi he
    rw [countVersion_cons] at hi
    by_cases hv : r.decodesTo VersionMsg
    · have h1 := countVersion_version r hv
      have hnone := hwok h1
      cases i with
      | zero =>
        rw [Nat.add_zero, hnone] at he
        cases he
      | succ i1 =>
        apply i8 i1 err (by omega)
        rw [hw, h1]
        simp only [List.replicate_one, List.length_append, List.length_singleton]
        rw [← he]
        congr 1
        omega
    · have h0 := countVersion_not_version r hv
      apply i8 i err (by omega)
      rw [hw, h0]
      simpa using he
  · intro i hi
    rw [countVersion_cons] at hi
    by_cases hv : r.decodesTo VersionMsg
    · have h1 := countVersion_version r hv
      cases i with
      | zero => exact hwok h1
      | succ i1 =>
        have h9 := i9 i1 (by omega)
        rw [hw, h1] at h9
        simp only [List.replicate_one, List.length_append, List.length_singleton] at h9
        rw [← h9]
        congr 1
        omega
    · have h0 := countVersion_not_version r hv
      have h9 := i9 i (by omega)
      rw [hw, h0] at h9
      simpa using h9

theorem not_version_of_verack (r : ReadResult) (h : r.decodesTo VerackMsg) :
    ¬ r.decodesTo VersionMsg := fun hv =>
  absurd (decodesTo_unique r _ _ hv h) (by decide)

/-- Every run of the handshake loop that starts with at most one flag set takes a prefix
`consumed` of the `Read` results and satisfies `LoopRun`. -/
theorem handshakeLoop_run (writeErr : Nat → Option Error) :
    ∀ (reads : List ReadResult) (written : List (List Byte)) (verackSeen versionSeen : Bool),
      ¬ (verackSeen = true ∧ versionSeen = true) →
      ∃ consumed,
        reads = consumed ++
          (Client.handshakeLoop writeErr reads written verackSeen versionSeen).2.reads ∧
        LoopRun writeErr written verackSeen versionSeen
          (Client.handshakeLoop writeErr reads written verackSeen versionSeen) consumed := by
  intro reads
  induction reads with
  | nil =>
    intro written verackSeen versionSeen _
    refine ⟨[], by simp [Client.handshakeLoop], ?_⟩
    refine ⟨by simp [Client.handshakeLoop, countVersion_nil], ?_, ?_, ?_, ?_, ?_, ?_⟩
    · intro h
      simp [Client.handshakeLoop] at h
    · intro init last h
      simp at h
    · intro j hj
      simp at hj
    · intro x hx
      exact absurd hx (List.not_mem_nil x)
    · intro i err hi
      simp [countVersion_nil] at hi
    · intro i hi
      simp [countVersion_nil] at hi
  | cons r reads ih =>
    intro written verackSeen versionSeen hflags
    rcases readMessage_cases r with ⟨err, hr⟩ | hr | hr | ⟨k, hr, h1, h2⟩
    · have h0 := countVersion_not_version r (not_decodesTo_of_error r err _ hr)
      rw [handshakeLoop_error writeErr r reads written _ _ err hr]
      refine ⟨[r], rfl, LoopRun_terminal writeErr r written _ _ _ _ hflags ?_ ?_ ?_ ?_⟩
      · simp [h0]
      · intro h
        cases h
      · intro err1 hr1
        rw [hr] at hr1
        cases hr1
        rfl
      · intro err1 hc
        rw [h0] at hc
        cases hc
    · have h1 := countVersion_version r hr
      cases hw : writeErr written.length with
      | some err =>
        rw [handshakeLoop_version_fail writeErr r reads written _ _ err hr hw]
        refine ⟨[r], rfl, LoopRun_terminal writeErr r written _ _ _ _ hflags ?_ ?_ ?_ ?_⟩
        · simp [h1]
        · intro h
          cases h
        · intro err1 hr1
          exact absurd hr (not_decodesTo_of_error r err1 _ hr1)
        · intro err1 _ he
          rw [hw] at he
          cases he
          rfl
      | none =>
        cases verackSeen with
        | true =>
          rw [handshakeLoop_version writeErr r reads written _ _ hr hw]
          refine ⟨[r], rfl, LoopRun_terminal writeErr r written _ _ _ _ hflags ?_ ?_ ?_ ?_⟩
          · simp [h1]
          · intro _
            exact ⟨Or.inr hr, Or.inl rfl⟩
          · intro err1 hr1
            exact absurd hr (not_decodesTo_of_error r err1 _ hr1)
          · intro err1 _ he
            rw [hw] at he
            cases he
        | false =>
          have hstep : ∀ rs, Client.handshakeLoop writeErr (r :: rs) written false versionSeen =
              Client.handshakeLoop writeErr rs
                (written ++ [(NewMessage VerackMsg Slice.nil).Bytes]) false true := by
            intro rs
            rw [handshakeLoop_version writeErr r rs written _ _ hr hw]
            simp
          obtain ⟨consumed, hc, hrun⟩ :=
            ih (written ++ [(NewMessage VerackMsg Slice.nil).Bytes]) false true (by simp)
          rw [hstep]
          refine ⟨r :: consumed, by rw [List.cons_append, ← hc], ?_⟩
          refine LoopRun_cons writeErr r written _ false versionSeen false true _ consumed
            hflags (Or.inl hr) hstep ?_ (fun _ => hw) ?_ ?_ hrun
          · simp [h1]
          · exact ⟨fun _ => Or.inr hr, fun _ => rfl⟩
          · constructor
            · intro h
              cases h
            · rintro (h | h)
              · cases h
              · exact absurd hr (not_version_of_verack r h)
    · have h0 := countVersion_not_version r (not_version_of_verack r hr)
      cases versionSeen with
      | true =>
        rw [handshakeLoop_verack writeErr r reads written _ _ hr]
        refine ⟨[r], rfl, LoopRun_terminal writeErr r written _ _ _ _ hflags ?_ ?_ ?_ ?_⟩
        · simp [h0]
        · intro _
          exact ⟨Or.inl rfl, Or.inr hr⟩
        · intro err1 hr1
          exact absurd hr (not_decodesTo_of_error r err1 _ hr1)
        · intro err1 hc
          rw [h0] at hc
          cases hc
      | false =>
        have hstep : ∀ rs, Client.handshakeLoop writeErr (r :: rs) written verackSeen false =
            Client.handshakeLoop writeErr rs written true false := by
          intro rs
          rw [handshakeLoop_verack writeErr r rs written _ _ hr]
          simp
        obtain ⟨consumed, hc, hrun⟩ := ih written true false (by simp)
        rw [hstep]
        refine ⟨r :: consumed, by rw [List.cons_append, ← hc], ?_⟩
        refine LoopRun_cons writeErr r written _ verackSeen false true false _ consumed
          hflags (Or.inr hr) hstep ?_ ?_ ?_ ?_ hrun
        · simp [h0]
        · intro hc
          rw [h0] at hc
          cases hc
        · constructor
          · intro h
            cases h
          · rintro (h | h)
            · cases h
            · exact absurd h (not_version_of_verack r hr)
        · exact ⟨fun _ => Or.inr hr, fun _ => rfl⟩
    · have hnv : ¬ r.decodesTo VersionMsg := fun hv => h1 (decodesTo_unique r _ _ hr hv)
      have hna : ¬ r.decodesTo VerackMsg := fun hv => h2 (decodesTo_unique r _ _ hr hv)
      have h0 := countVersion_not_version r hnv
      rw [handshakeLoop_other writeErr r reads written _ _ k hr h1 h2]
      refine ⟨[r], rfl, LoopRun_terminal writeErr r written _ _ _ _ hflags ?_ ?_ ?_ ?_⟩
      · simp [h0]
      · intro h
        cases h
      · intro err1 hr1
        obtain ⟨m, hm, _⟩ := hr
        rw [hm] at hr1
        cases hr1
      · intro err1 hc
        rw [h0] at hc
        cases hc

theorem handshake_first_write_ok (ip : Slice) (port : Nat) (now : Int) (nonce : Nat)
    (reads : List ReadResult) (writeErr : Nat → Option Error) (written : List (List Byte))
    (hw : writeErr written.length = none) :
    Client.handshake ip port now nonce ⟨reads, writeErr, written⟩ =
      Client.handshakeLoop writeErr reads
        (written ++ [(newVersionMessage ip (port % 65536) now nonce).Bytes]) false false := by
  simp [Client.handshake, Conn.Write, hw]

theorem handshake_first_write_fails (ip : Slice) (port : Nat) (now : Int) (nonce : Nat)
    (conn : Conn) (err : Error) (hw : conn.writeErr conn.written.length = some err) :
    Client.handshake ip port now nonce conn =
      (Outcome.returned (some (Error.join Error.ErrHandshake err)),
        { conn with
          written := conn.written ++ [(newVersionMessage ip (port % 65536) now nonce).Bytes] }) := by
  simp [Client.handshake, Conn.Write, hw]

theorem To16_len_le (ip : Slice) : (To16 ip).bytes.length ≤ 16 := by
  unfold To16
  by_cases h4 : ip.len = 4
  · rw [if_pos h4]
    have hb : ip.bytes.length = 4 := h4
    simp only [Slice.bytes_mk, List.length_append, hb]
    decide
  · rw [if_neg h4]
    by_cases h16 : ip.len = 16
    · rw [if_pos h16]
      exact Nat.le_of_eq h16
    · rw [if_neg h16]
      exact Nat.zero_le _

/-- The version payload is far shorter than 2^32 bytes, whatever the address. -/
theorem newVersionMessage_payload_lt (ip : Slice) (port : Nat) (now : Int) (nonce : Nat) :
    (newVersionMessage ip port now nonce).payload.len < 4294967296 := by
  have h16 := To16_len_le ip
  have hp := newVersionMessage_payload ip port now nonce
  simp only [Slice.len, hp, versionPayloadLayout, List.length_append, putUint32_length,
    LittleEndian.putUint64, BigEndian.putUint16, List.length_replicate, List.length_cons,
    List.length_nil]
  omega

/-- C19: for every sequence of `Read` results and every outcome of the `Write` calls: the
frame written first is a version frame (command `VersionMsg`, the "version" name at bytes
4..15, decoding to a version message) and the verack frame is a 24-byte frame with the
"verack" name and an empty payload; and the handshake takes a prefix `consumed` of the
`Read` results such that: the `Write` calls it makes are the version frame first and then
one verack frame for each version message in `consumed`; it returns nil only if `consumed`
holds a version and a verack message; before its last `Read` it had not seen both kinds; at
the moment it waits for `Read` number `j + 1` it has made exactly the version write and one
verack write for each version among the first `j` messages; a failed first write, a failed
`Read` or decode, or a failed verack write makes it return an error that wraps
`ErrHandshake` and the underlying error; every `Write` but the last one made has succeeded,
and when the handshake returns nil or waits for a `Read` the last one has succeeded too. -/
theorem handshake_invariant (ip : Slice) (port : Nat) (now : Int) (nonce : Nat) (conn : Conn) :
    ((newVersionMessage ip (port % 65536) now nonce).command = VersionMsg ∧
      slice (newVersionMessage ip (port % 65536) now nonce).Bytes 4 16 =
        some versionMessageBytes ∧
      ∃ m, messageFromBytes (Slice.mk (newVersionMessage ip (port % 65536) now nonce).Bytes) =
          some (.ok m) ∧ m.command = VersionMsg) ∧
    (slice (NewMessage VerackMsg Slice.nil).Bytes 4 16 = some verackMsgBytes ∧
      (NewMessage VerackMsg Slice.nil).Bytes.length = 24 ∧
      ∃ m, messageFromBytes (Slice.mk (NewMessage VerackMsg Slice.nil).Bytes) = some (.ok m) ∧
        m.command = VerackMsg ∧ m.payload.len = 0) ∧
    ∃ consumed : List ReadResult,
      conn.reads = consumed ++ (Client.handshake ip port now nonce conn).2.reads ∧
      (Client.handshake ip port now nonce conn).2.written =
        conn.written ++ (newVersionMessage ip (port % 65536) now nonce).Bytes ::
          List.replicate (countVersion consumed) (NewMessage VerackMsg Slice.nil).Bytes ∧
      ((Client.handshake ip port now nonce conn).1 = Outcome.returned none →
        (∃ r ∈ consumed, r.decodesTo VersionMsg) ∧ (∃ r ∈ consumed, r.decodesTo VerackMsg)) ∧
      (∀ init last, consumed = init ++ [last] →
        (∀ r ∈ init, r.decodesTo VersionMsg ∨ r.decodesTo VerackMsg) ∧
        ¬ ((∃ r ∈ init, r.decodesTo VersionMsg) ∧ (∃ r ∈ init, r.decodesTo VerackMsg))) ∧
      (∀ j, j < consumed.length →
        Client.handshake ip port now nonce ⟨consumed.take j, conn.writeErr, conn.written⟩ =
          (Outcome.blocked, ⟨[], conn.writeErr,
            conn.written ++ (newVersionMessage ip (port % 65536) now nonce).Bytes ::
              List.replicate (countVersion (consumed.take j))
                (NewMessage VerackMsg Slice.nil).Bytes⟩)) ∧
      (∀ err, conn.writeErr conn.written.length = some err →
        consumed = [] ∧
        ∃ e, (Client.handshake ip port now nonce conn).1 = Outcome.returned (some e) ∧
          e.Is Error.ErrHandshake = true ∧ e.Is err = true) ∧
      (∀ r ∈ consumed, ∀ err, Client.readMessage r = some (.error err) →
        ∃ e, (Client.handshake ip port now nonce conn).1 = Outcome.returned (some e) ∧
          e.Is Error.ErrHandshake = true ∧ e.Is err = true) ∧
      (∀ i err, i < countVersion consumed →
        conn.writeErr (conn.written.length + 1 + i) = some err →
        ∃ e, (Client.handshake ip port now nonce conn).1 = Outcome.returned (some e) ∧
          e.Is Error.ErrHandshake = true ∧ e.Is err = true) ∧
      (∀ i, i + 1 < 1 + countVersion consumed →
        conn.writeErr (conn.written.length + i) = none) ∧
      ((Client.handshake ip port now nonce conn).1 = Outcome.returned none ∨
          (Client.handshake ip port now nonce conn).1 = Outcome.blocked →
        ∀ i, i < 1 + countVersion consumed →
          conn.writeErr (conn.written.length + i) = none) := by
  have hversion : ∃ m,
      messageFromBytes (Slice.mk (newVersionMessage ip (port % 65536) now nonce).Bytes) =
        some (.ok m) ∧ m.command = VersionMsg := by
    obtain ⟨m, hm, _, hc, _⟩ := messageFromBytes_Bytes VersionMsg
      (newVersionMessage ip (port % 65536) now nonce).payload
      (newVersionMessage_payload_lt ip (port % 65536) now nonce)
    refine ⟨m, hm, ?_⟩
    rw [hc]
    decide
  refine ⟨⟨rfl, (Message_Bytes_slices (newVersionMessage ip (port % 65536) now nonce)).2.1,
    hversion⟩, ⟨by decide, by decide, _, rfl, by decide, by decide⟩, ?_⟩
  cases hw0 : conn.writeErr conn.written.length with
  | some err0 =>
    rw [handshake_first_write_fails ip port now nonce conn err0 hw0]
    refine ⟨[], rfl, by simp [countVersion_nil], ?_, ?_, ?_, ?_, ?_, ?_, ?_, ?_⟩
    · intro h
      cases h
    · intro init last h
      simp at h
    · intro j hj
      simp at hj
    · intro err he
      cases he
      exact ⟨rfl, _, rfl, Error.Is_join_left _ _,
        Error.Is_join_right _ _ _ (Error.Is_self _)⟩
    · intro r hr
      exact absurd hr (List.not_mem_nil r)
    · intro i err hi
      simp [countVersion_nil] at hi
    · intro i hi
      simp [countVersion_nil] at hi
    · rintro (h | h) <;> cases h
  | none =>
    obtain ⟨reads, writeErr, written⟩ := conn
    simp only at hw0
    obtain ⟨consumed, hc, h2, h3, h4, h5, h7, h8, h9⟩ := handshakeLoop_run writeErr reads
      (written ++ [(newVersionMessage ip (port % 65536) now nonce).Bytes]) false false
      (by simp)
    have hidx : ∀ k, (written ++ [(newVersionMessage ip (port % 65536) now nonce).Bytes]).length
        + k = written.length + (k + 1) := by
      intro k
      simp only [List.length_append, List.length_singleton]
      omega
    rw [handshake_first_write_ok ip port now nonce reads writeErr written hw0]
    refine ⟨consumed, hc, ?_, ?_, ?_, ?_, ?_, ?_, ?_, ?_, ?_⟩
    · rw [h2]
      simp
    · intro h
      obtain ⟨ha, hb⟩ := h3 h
      exact ⟨ha.resolve_left (by simp), hb.resolve_left (by simp)⟩
    · intro init last hl
      obtain ⟨j1, j2⟩ := h4 init last hl
      exact ⟨j1, fun ⟨ha, hb⟩ => j2 ⟨Or.inr ha, Or.inr hb⟩⟩
    · intro j hj
      rw [handshake_first_write_ok ip port now nonce _ writeErr written hw0, h5 j hj]
      simp
    · intro err he
      cases he
    · intro r hr err he
      exact ⟨_, h7 r hr err he, Error.Is_join_left _ _,
        Error.Is_join_right _ _ _ (Error.Is_self _)⟩
    · intro i err hi he
      refine ⟨_, h8 i err hi ?_, Error.Is_join_left _ _,
        Error.Is_join_right _ _ _ (Error.Is_join_right _ _ _ (Error.Is_self _))⟩
      rw [← he]
      congr 1
      simp
    · intro i hi
      cases i with
      | zero => exact hw0
      | succ k =>
        have := h9 k (by omega)
        rw [hidx k] at this
        exact this
    · intro hout i hi
      cases i with
      | zero => exact hw0
      | succ k =>
        cases hk : writeErr (written.length + (k + 1)) with
        | none => exact hk
        | some err =>
          have hret := h8 k err (by omega) (by rw [hidx k]; exact hk)
          rcases hout with h | h <;> rw [hret] at h <;> cases h

/-- C19 at a concrete input: the peer sends version, version, verack and a further ping; every
write succeeds. The handshake returns nil, leaves the ping unread, has written the version
frame and two verack frames, and consumed a version and a verack message. -/
theorem handshake_invariant_witness :
    (Client.handshake (Slice.mk [127, 0, 0, 1]) 18444 1700000000 7
      ⟨[ReadResult.data (NewMessage VersionMsg (Slice.mk [1, 2, 3])).Bytes,
        ReadResult.data (NewMessage VersionMsg (Slice.mk [1, 2, 3])).Bytes,
        ReadResult.data (NewMessage VerackMsg Slice.nil).Bytes,
        ReadResult.data (NewMessage PingMsg Slice.nil).Bytes], fun _ => none, []⟩).1 =
      Outcome.returned none ∧
    (Client.handshake (Slice.mk [127, 0, 0, 1]) 18444 1700000000 7
      ⟨[ReadResult.data (NewMessage VersionMsg (Slice.mk [1, 2, 3])).Bytes,
        ReadResult.data (NewMessage VersionMsg (Slice.mk [1, 2, 3])).Bytes,
        ReadResult.data (NewMessage VerackMsg Slice.nil).Bytes,
        ReadResult.data (NewMessage PingMsg Slice.nil).Bytes], fun _ => none, []⟩).2.written =
      [(newVersionMessage (Slice.mk [127, 0, 0, 1]) 18444 1700000000 7).Bytes,
        (NewMessage VerackMsg Slice.nil).Bytes, (NewMessage VerackMsg Slice.nil).Bytes] ∧
    ∃ consumed : List ReadResult,
      (∃ r ∈ consumed, r.decodesTo VersionMsg) ∧ (∃ r ∈ consumed, r.decodesTo VerackMsg) := by
  have h0 : (Client.handshake (Slice.mk [127, 0, 0, 1]) 18444 1700000000 7
      ⟨[ReadResult.data (NewMessage VersionMsg (Slice.mk [1, 2, 3])).Bytes,
        ReadResult.data (NewMessage VersionMsg (Slice.mk [1, 2, 3])).Bytes,
        ReadResult.data (NewMessage VerackMsg Slice.nil).Bytes,
        ReadResult.data (NewMessage PingMsg Slice.nil).Bytes], fun _ => none, []⟩).1 =
      Outcome.returned none := by decide!
  obtain ⟨_, _, consumed, _, _, h3, _⟩ := handshake_invariant (Slice.mk [127, 0, 0, 1]) 18444
    1700000000 7
    ⟨[ReadResult.data (NewMessage VersionMsg (Slice.mk [1, 2, 3])).Bytes,
      ReadResult.data (NewMessage VersionMsg (Slice.mk [1, 2, 3])).Bytes,
      ReadResult.data (NewMessage VerackMsg Slice.nil).Bytes,
      ReadResult.data (NewMessage PingMsg Slice.nil).Bytes], fun _ => none, []⟩
  exact ⟨h0, by decide!, consumed, h3 h0⟩

end Btcore
